import Mathlib

/-!
Verification of the autoglm-go segmentation-and-parsing core.

The Go source under scrutiny:
- `phoneagent/helper/parse.go`: `ParseAction`, `parseDoCall`, `parseFinishMessage`,
  `parseLiteral` over a hand-rolled literal grammar;
- the llm client file: `Request` (live streaming segmenter) and `parseResponse`
  (authoritative thinking/action split).

Go strings are modelled as `List Char` (`GoStr`).  Go standard library helpers
used by the code (`strings.Contains`, `strings.SplitN`, `strings.Split`,
`strings.TrimSpace`, `strings.TrimPrefix`, `strings.TrimSuffix`,
`strconv.Atoi`, `strconv.ParseFloat`) are given executable models below.
Functions that can panic in Go (slice expressions with out-of-range bounds)
return a `GoRes` value with an explicit `panic` constructor.
-/

namespace AGlm

/-- Go strings, modelled as lists of characters. -/
abbrev GoStr := List Char

/-- Conversion from Lean string literals to the `GoStr` model. -/
def str (s : String) : GoStr := s.data

/-- Go `unicode.IsSpace` restricted to the Latin-1 range, which is what the
whitespace characters reaching this parser can be.  (Go additionally accepts
the higher Unicode space runes U+2000 etc.; none occur in any claim.) -/
def goIsSpace (c : Char) : Bool :=
  c = ' ' || c = '\t' || c = '\n' || c = '\x0b' || c = '\x0c' || c = '\r' ||
    c = '\x85' || c = '\xa0'

/-- Go `strings.TrimSpace`: drop leading and trailing whitespace. -/
def trimSpace (s : GoStr) : GoStr :=
  ((s.dropWhile goIsSpace).reverse.dropWhile goIsSpace).reverse

/-- Go `strings.Contains s sub`: `sub` occurs as a contiguous substring. -/
def goContains : GoStr → GoStr → Bool
  | [], sub => sub.isPrefixOf []
  | c :: t, sub => sub.isPrefixOf (c :: t) || goContains t sub

/-- Go `strings.SplitN s sep 2`, as the split at the first occurrence of
`sep`: `some (before, after)` when `sep` occurs, `none` otherwise. -/
def splitFirst (sep : GoStr) : GoStr → Option (GoStr × GoStr)
  | [] => if sep.isPrefixOf [] then some ([], []) else none
  | c :: t =>
    if sep.isPrefixOf (c :: t) then some ([], (c :: t).drop sep.length)
    else (splitFirst sep t).map (fun p => (c :: p.1, p.2))

/-- Decomposition produced by `splitFirst`. -/
theorem splitFirst_eq_append {sep s a b : GoStr}
    (h : splitFirst sep s = some (a, b)) : s = a ++ sep ++ b := by
  induction s generalizing a b with
  | nil =>
    unfold splitFirst at h
    split at h
    · next hp =>
      simp only [Option.some.injEq, Prod.mk.injEq] at h
      obtain ⟨rfl, rfl⟩ := h
      have : sep = [] := by
        have := List.isPrefixOf_iff_prefix.mp hp
        simpa using this
      simp [this]
    · exact absurd h (by simp)
  | cons c t ih =>
    unfold splitFirst at h
    split at h
    · next hp =>
      simp only [Option.some.injEq, Prod.mk.injEq] at h
      obtain ⟨rfl, rfl⟩ := h
      have hpre := List.isPrefixOf_iff_prefix.mp hp
      obtain ⟨r, hr⟩ := hpre
      have hd : (c :: t).drop sep.length = r := by
        have := congrArg (List.drop sep.length) hr
        simpa using this.symm
      simp only [List.nil_append, hd]
      exact hr.symm
    · next hp =>
      simp only [Option.map_eq_some'] at h
      obtain ⟨⟨a', b'⟩, hsp, hab⟩ := h
      simp only [Prod.mk.injEq] at hab
      obtain ⟨rfl, rfl⟩ := hab
      have := ih hsp
      simp [this]

/-- The text before the first occurrence of `sep` does not itself contain
`sep` (for nonempty `sep`). -/
theorem splitFirst_not_contains {sep s a b : GoStr} (hsep : sep ≠ [])
    (h : splitFirst sep s = some (a, b)) : goContains a sep = false := by
  induction s generalizing a b with
  | nil =>
    unfold splitFirst at h
    split at h
    · next hp =>
      simp only [Option.some.injEq, Prod.mk.injEq] at h
      obtain ⟨rfl, rfl⟩ := h
      simp only [goContains]
      cases sep with
      | nil => exact absurd rfl hsep
      | cons d u => simp [List.isPrefixOf]
    · exact absurd h (by simp)
  | cons c t ih =>
    unfold splitFirst at h
    split at h
    · next hp =>
      simp only [Option.some.injEq, Prod.mk.injEq] at h
      obtain ⟨rfl, rfl⟩ := h
      simp only [goContains]
      cases sep with
      | nil => exact absurd rfl hsep
      | cons d u => simp [List.isPrefixOf]
    · next hp =>
      simp only [Option.map_eq_some'] at h
      obtain ⟨⟨a', b'⟩, hsp, hab⟩ := h
      simp only [Prod.mk.injEq] at hab
      obtain ⟨rfl, rfl⟩ := hab
      have hrec := ih hsp
      have hdec := splitFirst_eq_append hsp
      simp only [goContains, Bool.or_eq_false_iff]
      refine ⟨?_, hrec⟩
      by_contra hcon
      simp only [Bool.not_eq_false] at hcon
      have hpre2 := List.isPrefixOf_iff_prefix.mp hcon
      have : sep.isPrefixOf (c :: t) = true := by
        rw [List.isPrefixOf_iff_prefix]
        calc sep <+: c :: a' := hpre2
          _ <+: c :: t := by
            rw [hdec]
            exact ⟨sep ++ b', by simp⟩
      simp [this] at hp

/-- When `sep` does not occur, `splitFirst` returns `none` (nonempty `sep`). -/
theorem splitFirst_eq_none_of_not_contains {sep s : GoStr}
    (h : goContains s sep = false) : splitFirst sep s = none := by
  induction s with
  | nil =>
    unfold splitFirst
    simp only [goContains] at h
    simp [h]
  | cons c t ih =>
    unfold splitFirst
    simp only [goContains, Bool.or_eq_false_iff] at h
    simp [h.1, ih h.2]

/-- Conversely, `splitFirst` succeeding means `sep` occurs. -/
theorem contains_of_splitFirst {sep s a b : GoStr}
    (h : splitFirst sep s = some (a, b)) : goContains s sep = true := by
  by_contra hc
  simp only [Bool.not_eq_true] at hc
  rw [splitFirst_eq_none_of_not_contains hc] at h
  exact absurd h (by simp)

/-- And `goContains` succeeding means `splitFirst` succeeds. -/
theorem splitFirst_isSome_of_contains {sep s : GoStr}
    (h : goContains s sep = true) : ∃ a b, splitFirst sep s = some (a, b) := by
  induction s with
  | nil =>
    simp only [goContains] at h
    exact ⟨[], [], by unfold splitFirst; simp [h]⟩
  | cons c t ih =>
    simp only [goContains, Bool.or_eq_true] at h
    unfold splitFirst
    by_cases hp : sep.isPrefixOf (c :: t)
    · exact ⟨[], (c :: t).drop sep.length, by simp [hp]⟩
    · rcases h with h | h
      · exact absurd h hp
      · obtain ⟨a, b, hab⟩ := ih h
        exact ⟨c :: a, b, by simp [hp, hab]⟩

/-- Characterisation: `goContains` is the Boolean infix test. -/
theorem goContains_infix_iff {s sub : GoStr} :
    goContains s sub = true ↔ sub <:+: s := by
  induction s with
  | nil =>
    simp only [goContains, List.isPrefixOf_iff_prefix, List.infix_nil]
    constructor
    · intro h; simpa using h
    · intro h; simp [h]
  | cons c t ih =>
    simp only [goContains, Bool.or_eq_true, List.isPrefixOf_iff_prefix,
      List.infix_cons_iff, ih]

/-- Length decrease across one `splitFirst` step. -/
theorem splitFirst_length_lt {sep s a b : GoStr} (hsep : sep ≠ [])
    (h : splitFirst sep s = some (a, b)) : b.length < s.length := by
  have hd := splitFirst_eq_append h
  have hlen : s.length = a.length + sep.length + b.length := by
    simp only [hd, List.length_append]
  have hpos : 0 < sep.length := List.length_pos.mpr hsep
  omega

/-- For a nonempty separator, `splitFirst` finds nothing in the empty
string. -/
theorem splitFirst_nil {sep : GoStr} (hsep : sep ≠ []) :
    splitFirst sep [] = none := by
  unfold splitFirst
  cases sep with
  | nil => exact absurd rfl hsep
  | cons d u => simp [List.isPrefixOf]

/-- Fuelled worker for Go `strings.Split`: peel off the text before each
occurrence of the separator.  Structural recursion on the fuel keeps the
function kernel-reducible; `splitGo` supplies enough fuel that the fuel
never runs out. -/
def splitGoF (sep : GoStr) : Nat → GoStr → List GoStr
  | 0, s => [s]
  | fuel + 1, s =>
    match splitFirst sep s with
    | none => [s]
    | some (a, b) => a :: splitGoF sep fuel b

/-- Go `strings.Split s sep` for nonempty `sep` (every call site in the
source passes a nonempty separator; for an empty separator Go would split
into runes, which is not modelled). -/
def splitGo (sep s : GoStr) : List GoStr := splitGoF sep s.length s

/-- The fuel of `splitGoF` is irrelevant once it covers the string length. -/
theorem splitGoF_congr {sep : GoStr} (hsep : sep ≠ []) :
    ∀ (f1 f2 : Nat) (s : GoStr), s.length ≤ f1 → s.length ≤ f2 →
      splitGoF sep f1 s = splitGoF sep f2 s := by
  intro f1
  induction f1 with
  | zero =>
    intro f2 s h1 h2
    have hs : s = [] := List.length_eq_zero.mp (Nat.le_zero.mp h1)
    subst hs
    cases f2 with
    | zero => rfl
    | succ k => simp [splitGoF, splitFirst_nil hsep]
  | succ f ih =>
    intro f2 s h1 h2
    match h : splitFirst sep s with
    | none =>
      cases f2 with
      | zero =>
        have hs : s = [] := List.length_eq_zero.mp (Nat.le_zero.mp h2)
        subst hs
        simp [splitGoF, splitFirst_nil hsep]
      | succ k => simp [splitGoF, h]
    | some (a, b) =>
      have hb := splitFirst_length_lt hsep h
      cases f2 with
      | zero =>
        have hs : s = [] := List.length_eq_zero.mp (Nat.le_zero.mp h2)
        subst hs
        rw [splitFirst_nil hsep] at h
        exact absurd h (by simp)
      | succ k =>
        simp only [splitGoF, h]
        exact congrArg (a :: ·) (ih k b (by omega) (by omega))

/-- Unfolding equation for `splitGo` when the separator occurs. -/
theorem splitGo_cons {sep s a b : GoStr} (hsep : sep ≠ [])
    (h : splitFirst sep s = some (a, b)) :
    splitGo sep s = a :: splitGo sep b := by
  unfold splitGo
  have hb := splitFirst_length_lt hsep h
  obtain ⟨k, hk⟩ : ∃ k, s.length = k + 1 := ⟨s.length - 1, by omega⟩
  rw [hk]
  simp only [splitGoF, h]
  exact congrArg (a :: ·) (splitGoF_congr hsep k b.length b (by omega) le_rfl)

/-- Unfolding equation for `splitGo` when the separator does not occur. -/
theorem splitGo_single {sep s : GoStr} (h : goContains s sep = false) :
    splitGo sep s = [s] := by
  have hn := splitFirst_eq_none_of_not_contains h
  cases s with
  | nil => rfl
  | cons c t => simp [splitGo, splitGoF, hn]

/-- Pieces returned by `splitGo` never contain the separator, fuelled form. -/
theorem splitGo_pieces_aux {sep : GoStr} (hsep : sep ≠ []) :
    ∀ (n : Nat) (s : GoStr), s.length ≤ n →
      ∀ p ∈ splitGo sep s, goContains p sep = false := by
  intro n
  induction n with
  | zero =>
    intro s hs p hp
    have hnil : s = [] := List.length_eq_zero.mp (Nat.le_zero.mp hs)
    subst hnil
    have hnc : goContains ([] : GoStr) sep = false := by
      simp only [goContains]
      cases sep with
      | nil => exact absurd rfl hsep
      | cons d u => simp [List.isPrefixOf]
    rw [splitGo_single hnc] at hp
    simp only [List.mem_singleton] at hp
    subst hp
    exact hnc
  | succ n ih =>
    intro s hs p hp
    match h : splitFirst sep s with
    | none =>
      have hnc : goContains s sep = false := by
        by_contra hc
        simp only [Bool.not_eq_false] at hc
        obtain ⟨a, b, hab⟩ := splitFirst_isSome_of_contains hc
        rw [h] at hab
        exact absurd hab (by simp)
      rw [splitGo_single hnc] at hp
      simp only [List.mem_singleton] at hp
      subst hp
      exact hnc
    | some (a, b) =>
      rw [splitGo_cons hsep h] at hp
      simp only [List.mem_cons] at hp
      rcases hp with rfl | hp
      · exact splitFirst_not_contains hsep h
      · have hlen : b.length < s.length := splitFirst_length_lt hsep h
        exact ih b (by omega) p hp

/-- Pieces returned by `splitGo` never contain the separator. -/
theorem splitGo_pieces_not_contain {sep s : GoStr} (hsep : sep ≠ []) :
    ∀ p ∈ splitGo sep s, goContains p sep = false :=
  splitGo_pieces_aux hsep s.length s le_rfl

/-- Go `strings.TrimPrefix`. -/
def trimPre (s pre : GoStr) : GoStr :=
  if pre.isPrefixOf s then s.drop pre.length else s

/-- Go `strings.TrimSuffix`. -/
def trimSuf (s suf : GoStr) : GoStr :=
  if suf.isSuffixOf s then s.take (s.length - suf.length) else s

/-- Outcome of running a Go function: normal value, returned `error`, or a
runtime panic. -/
inductive GoRes (α : Type) where
  | ok (v : α)
  | err (msg : GoStr)
  | panic (msg : GoStr)
  deriving DecidableEq, Repr

/-- Go slice expression `s[low:high]`, which panics when the bounds are out
of range (`low > high` or `high > len(s)`). -/
def goSliceStr (s : GoStr) (low high : Nat) : GoRes GoStr :=
  if low ≤ high ∧ high ≤ s.length then .ok ((s.drop low).take (high - low))
  else .panic (str "runtime error: slice bounds out of range")

/-- Numeric value of a list of ASCII digit characters, most significant
first. -/
def digitsVal (ds : GoStr) : Nat :=
  ds.foldl (fun a c => a * 10 + (c.toNat - 48)) 0

/-- Signed 64-bit integer range check used by Go `strconv.Atoi` on a 64-bit
platform. -/
def inI64Range (v : Int) : Prop := -(2 ^ 63) ≤ v ∧ v < 2 ^ 63

instance (v : Int) : Decidable (inI64Range v) := by
  unfold inI64Range; infer_instance

/-- Strip one leading sign character, reporting whether it was a minus. -/
def signSplit : GoStr → Bool × GoStr
  | [] => (false, [])
  | c :: r =>
    if c = '+' then (false, r)
    else if c = '-' then (true, r)
    else (false, c :: r)

/-- Go `strconv.Atoi`: optional sign, one or more ASCII base-10 digits, and
the value must fit in a signed 64-bit integer (otherwise Atoi reports a
range error). -/
def goAtoi (s : GoStr) : Option Int :=
  let p := signSplit s
  if p.2.isEmpty || !p.2.all Char.isDigit then none
  else
    let v : Int := if p.1 then -(digitsVal p.2 : Int) else (digitsVal p.2 : Int)
    if inI64Range v then some v else none

/-- Strip one leading sign character. -/
def dropSign : GoStr → GoStr
  | [] => []
  | c :: r => if c = '+' || c = '-' then r else c :: r

/-- All-lowercase copy of a string. -/
def lowerStr (s : GoStr) : GoStr := s.map Char.toLower

/-- The special values accepted by Go `strconv.ParseFloat` after the sign:
`inf`, `infinity` and `nan`, case-insensitively. -/
def isInfNan (s : GoStr) : Bool :=
  lowerStr s = str "inf" || lowerStr s = str "infinity" || lowerStr s = str "nan"

/-- Exponent part of a decimal float literal: empty, or `e`/`E`, an optional
sign and at least one digit. -/
def expOk : GoStr → Bool
  | [] => true
  | c :: r =>
    (c = 'e' || c = 'E') &&
      (let r' := dropSign r
       !r'.isEmpty && r'.all Char.isDigit)

/-- Unsigned decimal float syntax: digits with an optional fractional part
(at least one digit in the mantissa overall) and an optional exponent. -/
def decFloatOk (s : GoStr) : Bool :=
  let ds := s.takeWhile Char.isDigit
  let r1 := s.dropWhile Char.isDigit
  match r1 with
  | [] => !ds.isEmpty
  | c :: r2 =>
    if c = '.' then
      let ds2 := r2.takeWhile Char.isDigit
      let r3 := r2.dropWhile Char.isDigit
      (!ds.isEmpty || !ds2.isEmpty) && expOk r3
    else !ds.isEmpty && expOk (c :: r2)

/-- Syntactic acceptance test of Go `strconv.ParseFloat` (64-bit): optional
sign, then either a special value (`inf`, `infinity`, `nan`) or a decimal
mantissa with optional exponent.  The hexadecimal float form, digit
underscores and the overflow-to-error behaviour of `ParseFloat` are not
modelled; no claim depends on them.  The float64 value itself is not
modelled (the literal parser records the accepted token instead). -/
def goParseFloatOk (s : GoStr) : Bool :=
  let s1 := dropSign s
  isInfNan s1 || decFloatOk s1

/-- Literal values produced by `parseLiteral`: Go `any` holding a string, a
bool, an `[]int`, an `int`, or a `float64`.  The `float` constructor stores
the accepted source token instead of the float64 value. -/
inductive Lit where
  | str (s : GoStr)
  | boolean (b : Bool)
  | intArr (xs : List Int)
  | int (n : Int)
  | float (tok : GoStr)
  deriving DecidableEq, Repr

/-- Integer-array element loop of `parseLiteral`: each piece is trimmed and
parsed with `strconv.Atoi`; the first failure aborts with the piece in the
error message. -/
def goIntPieces : List GoStr → Except GoStr (List Int)
  | [] => .ok []
  | p :: ps =>
    match goAtoi (trimSpace p) with
    | none => .error (str "invalid int in array: " ++ p)
    | some v =>
      match goIntPieces ps with
      | .ok vs => .ok (v :: vs)
      | .error e => .error e

/-- Embedding of `parseLiteral` (parse.go lines 99-145).  The branches are
tested in source order: quoted string, booleans, integer array, integer,
float, error.  The quoted-string and array branches slice `s[1:len(s)-1]`
exactly as the source does, so a one-character token consisting of a single
double-quote panics (low bound 1 exceeds high bound 0). -/
def parseLiteral (s : GoStr) : GoRes Lit :=
  if (str "\"").isPrefixOf s && (str "\"").isSuffixOf s then
    match goSliceStr s 1 (s.length - 1) with
    | .ok mid => .ok (.str mid)
    | .err m => .err m
    | .panic m => .panic m
  else if s = str "true" then .ok (.boolean true)
  else if s = str "false" then .ok (.boolean false)
  else if (str "[").isPrefixOf s && (str "]").isSuffixOf s then
    match goSliceStr s 1 (s.length - 1) with
    | .ok inner =>
      let content := trimSpace inner
      if content = [] then .ok (.intArr [])
      else
        match goIntPieces (splitGo (str ",") content) with
        | .ok xs => .ok (.intArr xs)
        | .error e => .err e
    | .err m => .err m
    | .panic m => .panic m
  else
    match goAtoi (trimSpace s) with
    | some i => .ok (.int i)
    | none =>
      if goParseFloatOk (trimSpace s) then .ok (.float (trimSpace s))
      else .err (str "unsupported literal: " ++ s)

/-- Go `Action` is `map[string]any`.  It is modelled as an association list
in insertion order with unique keys; `upsert` reproduces Go map assignment
(replace in place, or append a new key). -/
abbrev Action := List (GoStr × Lit)

/-- Go map assignment `action[key] = val`. -/
def upsert (a : Action) (k : GoStr) (v : Lit) : Action :=
  if a.any (fun p => p.1 = k) then
    a.map (fun p => if p.1 = k then (k, v) else p)
  else a ++ [(k, v)]

/-- Argument loop of `parseDoCall` (parse.go lines 70-85): each token is
split at its first `=` (`strings.SplitN(part, "=", 2)`); a token without `=`
is an error carrying the token; the trimmed value is given to
`parseLiteral`, whose error is wrapped with the trimmed key; on success the
pair is assigned into the map and the loop continues. -/
def processParts : List GoStr → Action → GoRes Action
  | [], acc => .ok acc
  | part :: rest, acc =>
    match splitFirst (str "=") part with
    | none => .err (str "invalid argument: " ++ part)
    | some (k, v) =>
      match parseLiteral (trimSpace v) with
      | .panic m => .panic m
      | .err e => .err (str "invalid value for " ++ trimSpace k ++ str ": " ++ e)
      | .ok val => processParts rest (upsert acc (trimSpace k) val)

/-- Embedding of `parseDoCall` (parse.go lines 52-87). -/
def parseDoCall (expr : GoStr) : GoRes Action :=
  if (str "do(").isPrefixOf expr && (str ")").isSuffixOf expr then
    let body := trimSuf (trimPre expr (str "do(")) (str ")")
    let acc0 : Action := [(str "_metadata", .str (str "do"))]
    if trimSpace body = [] then .ok acc0
    else processParts (splitGo (str ", ") body) acc0
  else .err (str "invalid do() syntax")

/-- Backtracking matcher for the content part of the Go regular expression
`message="((?:\\.|[^"])*)"` starting right after the opening quote, with
Go's leftmost-first (Perl-like) submatch semantics: the greedy star prefers
another iteration, and within an iteration prefers `\\.` (a backslash
followed by any character except newline) over `[^"]`; on failure it
backtracks and finally exits the star to match the closing `"`.  Returns
the captured content and the remainder after the closing quote. -/
def mc : GoStr → Option (GoStr × GoStr)
  | [] => none
  | ['\\'] => none
  | '\\' :: d :: ds =>
    if d ≠ '\n' then
      match mc ds with
      | some p => some ('\\' :: d :: p.1, p.2)
      | none => (mc (d :: ds)).map (fun p => ('\\' :: p.1, p.2))
    else (mc (d :: ds)).map (fun p => ('\\' :: p.1, p.2))
  | c :: cs =>
    if c = '"' then some ([], cs)
    else (mc cs).map (fun p => (c :: p.1, p.2))

/-- The literal head `message="` of the finish-message regular expression. -/
def msgHead : GoStr := str "message=\""

/-- Leftmost match of the regular expression `message="((?:\\.|[^"])*)"`
over the input, returning the first capture group: scan start positions
left to right; at each position the pattern must begin with the literal
`message="`, and the remainder must be accepted by `mc`. -/
def findFinish : GoStr → Option GoStr
  | [] => none
  | c :: cs =>
    if msgHead.isPrefixOf (c :: cs) then
      match mc ((c :: cs).drop msgHead.length) with
      | some p => some p.1
      | none => findFinish cs
    else findFinish cs

/-- Embedding of `parseFinishMessage` (parse.go lines 91-97):
`messageRe.FindStringSubmatch` via `findFinish`; no match is the error
`message not found`. -/
def parseFinishMessage (s : GoStr) : Except GoStr GoStr :=
  match findFinish s with
  | some m => .ok m
  | none => .error (str "message not found")

/-- Embedding of `ParseAction` (parse.go lines 22-50): trim, then the `do(`
prefix dispatches to `parseDoCall` (wrapping its error), the `finish` prefix
dispatches to `parseFinishMessage`, and anything else is the error
`failed to parse action`. -/
def ParseAction (rawActionStr : GoStr) : GoRes Action :=
  let s := trimSpace rawActionStr
  if (str "do(").isPrefixOf s then
    match parseDoCall s with
    | .ok a => .ok a
    | .err e => .err (str "failed to parse do() action: " ++ e)
    | .panic m => .panic m
  else if (str "finish").isPrefixOf s then
    match parseFinishMessage s with
    | .ok m => .ok [(str "_metadata", .str (str "finish")), (str "message", .str m)]
    | .error e => .err e
  else .err (str "failed to parse action: " ++ s)

/-- Go `strings.ReplaceAll s old new` for nonempty `old`: replace every
non-overlapping occurrence, scanning left to right. -/
def replaceAllGo (s old new : GoStr) : GoStr :=
  List.intercalate new (splitGo old s)

/-- The ordered action marker list of the llm client:
`[]string{"finish(message=", "do(action="}`. -/
def actionMarkers : List GoStr := [str "finish(message=", str "do(action="]

/-- Embedding of `parseResponse` (llm client): ordered rules — split at the
first `finish(message=`; else split at the first `do(action=`; else strip
the legacy `<think>`/`</think>`/`</answer>` tags around `<answer>`; else
return the whole content as the action.  Returns (thinking, action).
The inner `none` branches are unreachable: the `goContains` guard
guarantees `splitFirst` succeeds (Go indexes `parts[1]` directly). -/
def parseResponse (content : GoStr) : GoStr × GoStr :=
  if goContains content (str "finish(message=") then
    match splitFirst (str "finish(message=") content with
    | some (a, b) => (trimSpace a, str "finish(message=" ++ b)
    | none => ([], content)
  else if goContains content (str "do(action=") then
    match splitFirst (str "do(action=") content with
    | some (a, b) => (trimSpace a, str "do(action=" ++ b)
    | none => ([], content)
  else if goContains content (str "<answer>") then
    match splitFirst (str "<answer>") content with
    | some (a, b) =>
      (trimSpace (replaceAllGo (replaceAllGo a (str "<think>") [])
          (str "</think>") []),
        trimSpace (replaceAllGo b (str "</answer>") []))
    | none => ([], content)
  else ([], content)

/-- State of the live segmentation loop in `Request` (llm client): the
pending `thinkingBuf`, the `inActionPhase` flag, the text printed so far by
`fmt.Print`, and how many times the phase has flipped to action. -/
structure SegState where
  buf : GoStr
  inAction : Bool
  printed : GoStr
  flips : Nat
  deriving DecidableEq, Repr

/-- Initial segmenter state. -/
def segInit : SegState := ⟨[], false, [], 0⟩

/-- Whether the buffer ends with a proper nonempty front part of any action
marker (`for i := 1; i < len(marker); i++ { HasSuffix(buf, marker[:i]) }`). -/
def isPotentialMarker (buf : GoStr) : Bool :=
  actionMarkers.any (fun m =>
    (List.range m.length).any (fun i => decide (1 ≤ i) && (m.take i).isSuffixOf buf))

/-- The first marker of the ordered list contained in the buffer, if any. -/
def firstMarkerIn (buf : GoStr) : Option GoStr :=
  actionMarkers.find? (fun m => goContains buf m)

/-- One delta of the live segmentation loop in `Request`: empty deltas are
skipped; in action phase everything is ignored; otherwise the delta is
appended to the buffer, a contained marker (tested in priority order)
prints the text before it and flips to action phase, a buffer whose suffix
could still grow into a marker is withheld, and anything else is printed
and the buffer cleared. -/
def procDelta (st : SegState) (delta : GoStr) : SegState :=
  if delta.isEmpty then st
  else if st.inAction then st
  else
    let buf := st.buf ++ delta
    match firstMarkerIn buf with
    | some m =>
      let thinkingPart :=
        match splitFirst m buf with
        | some p => p.1
        | none => buf
      { buf := buf, inAction := true, printed := st.printed ++ thinkingPart,
        flips := st.flips + 1 }
    | none =>
      if isPotentialMarker buf then { st with buf := buf }
      else { buf := [], inAction := false, printed := st.printed ++ buf,
             flips := st.flips }

/-- Run the live segmenter over a list of stream deltas. -/
def runSeg (chunks : List GoStr) : SegState :=
  chunks.foldl procDelta segInit

/-- Dropping while a predicate fails on the head changes nothing. -/
theorem dropWhile_cons_of_neg {p : Char → Bool} {c : Char} {r : GoStr}
    (h : p c = false) : (c :: r).dropWhile p = c :: r := by
  simp [List.dropWhile_cons, h]

/-- Dropping from a list ending in a non-matching element keeps that
element at the end. -/
theorem dropWhile_append_single {p : Char → Bool} {c : Char}
    (h : p c = false) :
    ∀ w : GoStr, ∃ z, (w ++ [c]).dropWhile p = z ++ [c] := by
  intro w
  induction w with
  | nil => exact ⟨[], by simp [List.dropWhile_cons, h]⟩
  | cons a w' ih =>
    by_cases hp : p a
    · obtain ⟨z, hz⟩ := ih
      exact ⟨z, by simp [List.dropWhile_cons, hp, hz]⟩
    · exact ⟨a :: w', by simp [List.dropWhile_cons, hp]⟩

/-- Trimming a string whose first character is not whitespace keeps that
first character. -/
theorem trimSpace_cons_head {c : Char} {r : GoStr} (h : goIsSpace c = false) :
    ∃ z, trimSpace (c :: r) = c :: z := by
  unfold trimSpace
  rw [dropWhile_cons_of_neg h]
  have hrev : (c :: r).reverse = r.reverse ++ [c] := by simp
  rw [hrev]
  obtain ⟨z, hz⟩ := dropWhile_append_single h r.reverse
  rw [hz]
  exact ⟨z.reverse, by simp⟩

/-- Dropping while a predicate that fails everywhere changes nothing. -/
theorem dropWhile_eq_self_of_all {p : Char → Bool} {l : GoStr}
    (h : ∀ c ∈ l, p c = false) : l.dropWhile p = l := by
  cases l with
  | nil => rfl
  | cons c t => simp [List.dropWhile_cons, h c (by simp)]

/-- A string with no whitespace characters is unchanged by `trimSpace`. -/
theorem trimSpace_eq_self_of_all {l : GoStr}
    (h : ∀ c ∈ l, goIsSpace c = false) : trimSpace l = l := by
  unfold trimSpace
  rw [dropWhile_eq_self_of_all h,
    dropWhile_eq_self_of_all (by intro c hc; exact h c (List.mem_reverse.mp hc)),
    List.reverse_reverse]

/-- A string wrapped in non-whitespace characters is unchanged by
`trimSpace`. -/
theorem trimSpace_eq_self_of_ends {c d : Char} {l : GoStr}
    (hc : goIsSpace c = false) (hd : goIsSpace d = false) :
    trimSpace (c :: l ++ [d]) = c :: l ++ [d] := by
  unfold trimSpace
  rw [show (c :: l ++ [d]).dropWhile goIsSpace = c :: l ++ [d] from by
    simpa [List.dropWhile_cons, hc] using rfl]
  rw [show (c :: l ++ [d]).reverse = d :: (l.reverse ++ [c]) from by simp]
  rw [dropWhile_cons_of_neg hd]
  simp

/-- Atoi rejects tokens that begin with anything but a sign or a digit. -/
theorem goAtoi_cons_none {c : Char} {r : GoStr} (hd : c.isDigit = false)
    (hp : c ≠ '+') (hm : c ≠ '-') : goAtoi (c :: r) = none := by
  unfold goAtoi signSplit
  simp [hp, hm, hd]

/-- ParseFloat rejects tokens that begin with anything but a sign, digit,
dot, or the head letter of a special value. -/
theorem goParseFloatOk_cons_other {c : Char} {r : GoStr}
    (hp : c ≠ '+') (hm : c ≠ '-') (hd : c.isDigit = false)
    (hdot : c ≠ '.') (hi : c.toLower ≠ 'i') (hn : c.toLower ≠ 'n') :
    goParseFloatOk (c :: r) = false := by
  have hinf : isInfNan (c :: r) = false := by
    unfold isInfNan lowerStr
    simp only [List.map_cons, Bool.or_eq_false_iff]
    refine ⟨⟨?_, ?_⟩, ?_⟩ <;> simp only [decide_eq_false_iff_not] <;> intro hcon <;>
      have hh := congrArg List.head? hcon <;> simp only [List.head?_cons] at hh
    · rw [show (str "inf").head? = some 'i' from rfl] at hh
      exact hi (by simpa using hh)
    · rw [show (str "infinity").head? = some 'i' from rfl] at hh
      exact hi (by simpa using hh)
    · rw [show (str "nan").head? = some 'n' from rfl] at hh
      exact hn (by simpa using hh)
  have hdec : decFloatOk (c :: r) = false := by
    unfold decFloatOk
    rw [List.takeWhile_cons, List.dropWhile_cons]
    simp only [hd, Bool.false_eq_true, if_false]
    simp [hdot]
  unfold goParseFloatOk dropSign
  simp [hp, hm, hinf, hdec]

/-- Quoted tokens of length at least two parse to the verbatim middle. -/
theorem parseLiteral_quoted (mid : GoStr) :
    parseLiteral ('"' :: mid ++ ['"']) = .ok (.str mid) := by
  have hpre : (str "\"").isPrefixOf ('"' :: mid ++ ['"']) = true := by
    simp [str, List.isPrefixOf]
  have hsuf : (str "\"").isSuffixOf ('"' :: mid ++ ['"']) = true := by
    unfold List.isSuffixOf
    rw [show ('"' :: mid ++ ['"'] : GoStr).reverse = '"' :: (mid.reverse ++ ['"'])
      from by simp]
    simp [str, List.isPrefixOf]
  unfold parseLiteral
  rw [hpre, hsuf]
  rw [if_pos (show (true && true) = true from rfl)]
  have hlen : ('"' :: mid ++ ['"'] : GoStr).length = mid.length + 2 := by simp
  unfold goSliceStr
  rw [hlen]
  rw [if_pos (by omega)]
  have hdrop : (('"' :: mid ++ ['"'] : GoStr).drop 1).take (mid.length + 2 - 1 - 1) =
      mid := by
    have h2 : mid.length + 2 - 1 - 1 = mid.length := by omega
    rw [h2]
    show (mid ++ ['"']).take mid.length = mid
    simpa using List.take_left mid ['"']
  simp [hdrop]

/-- An unquoted token whose trim Atoi accepts is parsed as that integer. -/
theorem parseLiteral_int {s : GoStr} {n : Int} (h : goAtoi (trimSpace s) = some n) :
    parseLiteral s = .ok (.int n) := by
  have hq : (str "\"").isPrefixOf s = false := by
    by_contra hc
    simp only [Bool.not_eq_false] at hc
    obtain ⟨r, hr⟩ := List.isPrefixOf_iff_prefix.mp hc
    have hs : s = '"' :: r := by rw [← hr]; rfl
    subst hs
    obtain ⟨z, hz⟩ := trimSpace_cons_head (c := '"') (r := r) (by decide)
    rw [hz, goAtoi_cons_none (by decide) (by decide) (by decide)] at h
    exact absurd h (by simp)
  have harr : (str "[").isPrefixOf s = false := by
    by_contra hc
    simp only [Bool.not_eq_false] at hc
    obtain ⟨r, hr⟩ := List.isPrefixOf_iff_prefix.mp hc
    have hs : s = '[' :: r := by rw [← hr]; rfl
    subst hs
    obtain ⟨z, hz⟩ := trimSpace_cons_head (c := '[') (r := r) (by decide)
    rw [hz, goAtoi_cons_none (by decide) (by decide) (by decide)] at h
    exact absurd h (by simp)
  have ht : s ≠ str "true" := by
    intro he; subst he
    rw [show trimSpace (str "true") = str "true" from by decide] at h
    rw [show goAtoi (str "true") = none from by decide] at h
    exact absurd h (by simp)
  have hf : s ≠ str "false" := by
    intro he; subst he
    rw [show trimSpace (str "false") = str "false" from by decide] at h
    rw [show goAtoi (str "false") = none from by decide] at h
    exact absurd h (by simp)
  unfold parseLiteral
  rw [hq, harr]
  simp [ht, hf, h]

/-- An unquoted token Atoi rejects but ParseFloat accepts is parsed as a
float. -/
theorem parseLiteral_float {s : GoStr} (hna : goAtoi (trimSpace s) = none)
    (hfl : goParseFloatOk (trimSpace s) = true) :
    parseLiteral s = .ok (.float (trimSpace s)) := by
  have hq : (str "\"").isPrefixOf s = false := by
    by_contra hc
    simp only [Bool.not_eq_false] at hc
    obtain ⟨r, hr⟩ := List.isPrefixOf_iff_prefix.mp hc
    have hs : s = '"' :: r := by rw [← hr]; rfl
    subst hs
    obtain ⟨z, hz⟩ := trimSpace_cons_head (c := '"') (r := r) (by decide)
    rw [hz, goParseFloatOk_cons_other (by decide) (by decide) (by decide)
      (by decide) (by decide) (by decide)] at hfl
    exact absurd hfl (by simp)
  have harr : (str "[").isPrefixOf s = false := by
    by_contra hc
    simp only [Bool.not_eq_false] at hc
    obtain ⟨r, hr⟩ := List.isPrefixOf_iff_prefix.mp hc
    have hs : s = '[' :: r := by rw [← hr]; rfl
    subst hs
    obtain ⟨z, hz⟩ := trimSpace_cons_head (c := '[') (r := r) (by decide)
    rw [hz, goParseFloatOk_cons_other (by decide) (by decide) (by decide)
      (by decide) (by decide) (by decide)] at hfl
    exact absurd hfl (by simp)
  have ht : s ≠ str "true" := by
    intro he; subst he
    rw [show trimSpace (str "true") = str "true" from by decide] at hfl
    rw [show goParseFloatOk (str "true") = false from by decide] at hfl
    exact absurd hfl (by simp)
  have hf : s ≠ str "false" := by
    intro he; subst he
    rw [show trimSpace (str "false") = str "false" from by decide] at hfl
    rw [show goParseFloatOk (str "false") = false from by decide] at hfl
    exact absurd hfl (by simp)
  unfold parseLiteral
  rw [hq, harr]
  simp [ht, hf, hna, hfl]

/-- C1 (code bug): the spec requires this core never to crash and always to
return a typed error, but the value token consisting of a single
double-quote satisfies both the `HasPrefix` and `HasSuffix` quote tests and
then evaluates the Go slice expression `s[1:0]`, a runtime panic; the panic
propagates through `parseDoCall` and `ParseAction` on the input
`do(x=")`. -/
theorem parseLiteral_lone_quote_panics :
    parseLiteral (str "\"") =
      .panic (str "runtime error: slice bounds out of range") ∧
    ParseAction (str "do(x=\")") =
      .panic (str "runtime error: slice bounds out of range") := by
  constructor <;> decide

/-- C2 counterexample: an action string that starts with neither call form
but contains the tag `<answer>` is not parsed by the legacy tag-stripping
rule; `ParseAction` returns an error on it. -/
theorem parseAction_answer_cex :
    goContains (str "<answer>bar</answer>") (str "<answer>") = true ∧
    ParseAction (str "<answer>bar</answer>") =
      .err (str "failed to parse action: <answer>bar</answer>") := by
  constructor <;> decide

/-- C2 (amended): `ParseAction` has no legacy branch; for every action
string whose trim starts with neither `do(` nor `finish`, it returns the
error `failed to parse action`, even when the string contains `<answer>`
(the tag-stripping rule lives only in `parseResponse`, rule 3). -/
theorem parseAction_answer_errors (s : GoStr)
    (hdo : (str "do(").isPrefixOf (trimSpace s) = false)
    (hfin : (str "finish").isPrefixOf (trimSpace s) = false)
    (_hans : goContains s (str "<answer>") = true) :
    ParseAction s = .err (str "failed to parse action: " ++ trimSpace s) := by
  unfold ParseAction
  simp [hdo, hfin]

/-- C2 witness: the amended statement at the concrete legacy-tag input. -/
theorem parseAction_answer_errors_witness :
    ParseAction (str "<answer>x</answer>") =
      .err (str "failed to parse action: " ++ trimSpace (str "<answer>x</answer>")) :=
  parseAction_answer_errors (str "<answer>x</answer>") (by decide) (by decide)
    (by decide)

/-- C3: the authoritative split prefers `finish(message=` over `do(action=`
regardless of textual position: whenever the content contains both markers,
thinking is the trimmed text before the first `finish(message=` and action
runs from that marker to the end. -/
theorem parseResponse_finish_priority (content a b : GoStr)
    (_hdo : goContains content (str "do(action=") = true)
    (hsp : splitFirst (str "finish(message=") content = some (a, b)) :
    parseResponse content = (trimSpace a, str "finish(message=" ++ b) := by
  have hc := contains_of_splitFirst hsp
  unfold parseResponse
  rw [hc]
  simp [hsp]

/-- C3 witness: a `do(action=` marker occurs strictly before the
`finish(message=` marker, and the split still selects `finish`. -/
theorem parseResponse_finish_priority_witness :
    parseResponse (str "x do(action=1) y finish(message=\"m\")") =
      (trimSpace (str "x do(action=1) y "),
        str "finish(message=" ++ str "\"m\")") :=
  parseResponse_finish_priority (str "x do(action=1) y finish(message=\"m\")")
    (str "x do(action=1) y ") (str "\"m\")") (by decide) (by decide)

/-- C6: the literal grammar is tested in fixed order with first match
governing: a token consisting of a double-quote, any middle text, and a
closing double-quote yields exactly that middle verbatim (no escape
processing); the bare tokens `true` and `false` yield booleans (so they can
never yield the strings, the function being deterministic); a token whose
trim Atoi accepts is parsed as that integer, and a token Atoi rejects but
ParseFloat accepts is parsed as a float — never as a string. -/
theorem parseLiteral_grammar_order :
    (∀ mid : GoStr, parseLiteral ('"' :: mid ++ ['"']) = .ok (.str mid)) ∧
    parseLiteral (str "true") = .ok (.boolean true) ∧
    parseLiteral (str "false") = .ok (.boolean false) ∧
    (∀ (s : GoStr) (n : Int), goAtoi (trimSpace s) = some n →
      parseLiteral s = .ok (.int n)) ∧
    (∀ s : GoStr, goAtoi (trimSpace s) = none →
      goParseFloatOk (trimSpace s) = true →
      parseLiteral s = .ok (.float (trimSpace s))) :=
  ⟨parseLiteral_quoted, by decide, by decide,
    fun _ _ h => parseLiteral_int h, fun _ h1 h2 => parseLiteral_float h1 h2⟩

/-- C6 witness: the grammar-order theorem at concrete tokens — a quoted
numeric-looking token stays a string, `42` is an integer, `1.5` a float. -/
theorem parseLiteral_grammar_order_witness :
    parseLiteral ('"' :: str "7" ++ ['"']) = .ok (.str (str "7")) ∧
    parseLiteral (str "42") = .ok (.int 42) ∧
    parseLiteral (str "1.5") = .ok (.float (trimSpace (str "1.5"))) :=
  ⟨parseLiteral_grammar_order.1 (str "7"),
    parseLiteral_grammar_order.2.2.2.1 (str "42") 42 (by decide),
    parseLiteral_grammar_order.2.2.2.2 (str "1.5") (by decide) (by decide)⟩

/-- A right segment is contained in the appended whole. -/
theorem goContains_append_right (x y : GoStr) : goContains (x ++ y) y = true :=
  goContains_infix_iff.mpr ⟨x, [], by simp⟩

/-- Containment is preserved by extending the haystack on the left. -/
theorem goContains_mono_left {m e : GoStr} (x : GoStr)
    (h : goContains m e = true) : goContains (x ++ m) e = true :=
  goContains_infix_iff.mpr ((goContains_infix_iff.mp h).trans ⟨x, [], by simp⟩)

/-- C7 counterexample: the argument token `x="="` contains two `=`
characters, yet `ParseAction` accepts it as the key `x` with string value
`=` — a token with more than one `=` is not rejected. -/
theorem parseDo_two_equals_cex :
    (str "x=\"=\"").count '=' = 2 ∧
    ParseAction (str "do(x=\"=\")") =
      .ok [(str "_metadata", .str (str "do")), (str "x", .str (str "="))] := by
  constructor <;> decide

/-- C7 (amended): each candidate token must contain at least one `=` — a
token with none is the ArgumentError `invalid argument` — and is otherwise
split at its first `=`: the key is the (trimmed) text before the first
`=` and contains no `=` itself, while the value token may contain further
`=` characters and the pair is accepted whenever the value parses. -/
theorem processParts_splits_at_first_equals :
    ∀ (part : GoStr) (rest : List GoStr) (acc : Action),
      (goContains part (str "=") = false →
        processParts (part :: rest) acc =
          .err (str "invalid argument: " ++ part)) ∧
      (∀ k v, splitFirst (str "=") part = some (k, v) →
        part = k ++ str "=" ++ v ∧ goContains k (str "=") = false ∧
        ∀ val, parseLiteral (trimSpace v) = .ok val →
          processParts (part :: rest) acc =
            processParts rest (upsert acc (trimSpace k) val)) := by
  intro part rest acc
  constructor
  · intro hn
    have hsp := splitFirst_eq_none_of_not_contains hn
    simp [processParts, hsp]
  · intro k v hsp
    refine ⟨splitFirst_eq_append hsp,
      splitFirst_not_contains (by decide) hsp, ?_⟩
    intro val hval
    simp [processParts, hsp, hval]

/-- C7 witness: the amended statement at the two-`=` token `x="="`. -/
theorem processParts_splits_at_first_equals_witness :
    processParts [str "x=\"=\""] [(str "_metadata", Lit.str (str "do"))] =
      processParts []
        (upsert [(str "_metadata", Lit.str (str "do"))] (trimSpace (str "x"))
          (.str (str "="))) :=
  ((processParts_splits_at_first_equals (str "x=\"=\"") []
      [(str "_metadata", Lit.str (str "do"))]).2 (str "x") (str "\"=\"")
      (by decide)).2.2 (.str (str "=")) (by decide)

/-- Success of the argument loop means every token was well formed. -/
theorem processParts_ok_all_good :
    ∀ (parts : List GoStr) (acc a : Action), processParts parts acc = .ok a →
      ∀ part ∈ parts, ∃ k v lv, splitFirst (str "=") part = some (k, v) ∧
        parseLiteral (trimSpace v) = .ok lv := by
  intro parts
  induction parts with
  | nil => intro acc a _ part hp; simp at hp
  | cons p rest ih =>
    intro acc a h part hp
    unfold processParts at h
    rcases hsp : splitFirst (str "=") p with _ | ⟨k, v⟩
    · rw [hsp] at h; exact absurd h (by simp)
    · simp only [hsp] at h
      rcases hlit : parseLiteral (trimSpace v) with lv | e | m <;>
        simp only [hlit] at h
      · rcases List.mem_cons.mp hp with rfl | hp
        · exact ⟨k, v, lv, hsp, hlit⟩
        · exact ih _ a h part hp
      · exact absurd h (by simp)
      · exact absurd h (by simp)

/-- The argument loop aborts at the first bad token with an error message
containing the offending text, provided the earlier tokens are good. -/
theorem processParts_first_bad_err :
    ∀ (pre post : List GoStr) (part : GoStr) (acc : Action),
      (∀ q ∈ pre, ∃ k v lv, splitFirst (str "=") q = some (k, v) ∧
          parseLiteral (trimSpace v) = .ok lv) →
      ((splitFirst (str "=") part = none →
          processParts (pre ++ part :: post) acc =
            .err (str "invalid argument: " ++ part)) ∧
       (∀ k v e, splitFirst (str "=") part = some (k, v) →
          parseLiteral (trimSpace v) = .err e →
          ∃ m, processParts (pre ++ part :: post) acc = .err m ∧
            goContains m e = true)) := by
  intro pre
  induction pre with
  | nil =>
    intro post part acc _
    constructor
    · intro hn
      simp [processParts, hn]
    · intro k v e hsp hlit
      refine ⟨str "invalid value for " ++ trimSpace k ++ str ": " ++ e, ?_, ?_⟩
      · simp [processParts, hsp, hlit]
      · rw [show str "invalid value for " ++ trimSpace k ++ str ": " ++ e =
          (str "invalid value for " ++ trimSpace k ++ str ": ") ++ e from by simp]
        exact goContains_append_right _ e
  | cons q pre' ih =>
    intro post part acc hgood
    obtain ⟨k, v, lv, hsp, hlit⟩ := hgood q (by simp)
    have hgood' : ∀ q' ∈ pre', ∃ k v lv, splitFirst (str "=") q' = some (k, v) ∧
        parseLiteral (trimSpace v) = GoRes.ok lv := by
      intro q' hq'
      exact hgood q' (List.mem_cons_of_mem q hq')
    have hred : processParts ((q :: pre') ++ part :: post) acc =
        processParts (pre' ++ part :: post) (upsert acc (trimSpace k) lv) := by
      simp [processParts, hsp, hlit]
    rw [hred]
    exact ih post part _ hgood'

/-- C8: the do() parse is atomic.  First, for an input `ParseAction`
accepts whose trim starts with `do(` and whose body is not blank, every
argument token split off the body was well formed (no Action is ever built
from a string with a malformed token).  Second, if the token list has a
first bad token — the earlier tokens being good — the whole call returns an
error whose message contains the offending text (the token itself when it
has no `=`, the literal error, which embeds the rejected text, otherwise),
and no Action is returned. -/
theorem parseAction_do_atomic :
    (∀ (s : GoStr) (a : Action), ParseAction s = .ok a →
      (str "do(").isPrefixOf (trimSpace s) = true →
      trimSpace (trimSuf (trimPre (trimSpace s) (str "do(")) (str ")")) ≠ [] →
      ∀ part ∈ splitGo (str ", ")
          (trimSuf (trimPre (trimSpace s) (str "do(")) (str ")")),
        ∃ k v lv, splitFirst (str "=") part = some (k, v) ∧
          parseLiteral (trimSpace v) = .ok lv) ∧
    (∀ (s : GoStr) (pre post : List GoStr) (part : GoStr),
      (str "do(").isPrefixOf (trimSpace s) = true →
      (str ")").isSuffixOf (trimSpace s) = true →
      trimSpace (trimSuf (trimPre (trimSpace s) (str "do(")) (str ")")) ≠ [] →
      splitGo (str ", ") (trimSuf (trimPre (trimSpace s) (str "do(")) (str ")")) =
        pre ++ part :: post →
      (∀ q ∈ pre, ∃ k v lv, splitFirst (str "=") q = some (k, v) ∧
          parseLiteral (trimSpace v) = .ok lv) →
      ((splitFirst (str "=") part = none →
          ∃ m, ParseAction s = .err m ∧ goContains m part = true) ∧
       (∀ k v e, splitFirst (str "=") part = some (k, v) →
          parseLiteral (trimSpace v) = .err e →
          ∃ m, ParseAction s = .err m ∧ goContains m e = true))) := by
  constructor
  · intro s a hok hpre hbody part hp
    unfold ParseAction at hok
    simp only [hpre, if_true] at hok
    rcases hpd : parseDoCall (trimSpace s) with a' | e | m <;> rw [hpd] at hok
    · unfold parseDoCall at hpd
      by_cases hsufx : (str ")").isSuffixOf (trimSpace s)
      · simp only [hpre, hsufx, Bool.and_self, if_true] at hpd
        rw [if_neg hbody] at hpd
        exact processParts_ok_all_good _ _ _ hpd part hp
      · simp only [hpre, hsufx, Bool.and_false, if_false] at hpd
        exact absurd hpd (by simp)
    · exact absurd hok (by simp)
    · exact absurd hok (by simp)
  · intro s pre post part hpre hsufx hbody hsplit hgood
    have hfirst := processParts_first_bad_err pre post part
      [(str "_metadata", Lit.str (str "do"))] hgood
    have hpd : parseDoCall (trimSpace s) =
        processParts (pre ++ part :: post)
          [(str "_metadata", Lit.str (str "do"))] := by
      unfold parseDoCall
      simp only [hpre, hsufx, Bool.and_self, if_true]
      rw [if_neg hbody, hsplit]
    constructor
    · intro hn
      refine ⟨str "failed to parse do() action: " ++
        (str "invalid argument: " ++ part), ?_, ?_⟩
      · unfold ParseAction
        simp only [hpre, if_true]
        rw [hpd, hfirst.1 hn]
      · exact goContains_mono_left _ (goContains_append_right _ part)
    · intro k v e hsp hlit
      obtain ⟨m, hm, hc⟩ := hfirst.2 k v e hsp hlit
      refine ⟨str "failed to parse do() action: " ++ m, ?_, ?_⟩
      · unfold ParseAction
        simp only [hpre, if_true]
        rw [hpd, hm]
      · exact goContains_mono_left _ hc

/-- C8 witness: the atomicity theorem at `do(action="x", bad)`, whose
second token has no `=`; the parse fails with the token in the message. -/
theorem parseAction_do_atomic_witness :
    ∃ m, ParseAction (str "do(action=\"x\", bad)") = .err m ∧
      goContains m (str "bad") = true :=
  (parseAction_do_atomic.2 (str "do(action=\"x\", bad)") [str "action=\"x\""] []
    (str "bad") (by decide) (by decide) (by decide) (by decide)
    (fun q hq => by
      simp only [List.mem_singleton] at hq
      subst hq
      exact ⟨str "action", str "\"x\"", .str (str "x"), by decide, by decide⟩)).1
    (by decide)

/-- C10: for every input whose trimmed text begins with the literal
`finish` (six characters), `ParseAction` is governed entirely by the
leftmost match of the regular expression for the substring pattern
`message="..."` (with backslash escapes allowed inside): it succeeds
exactly when that pattern matches somewhere in the trimmed input, and then
returns exactly the map with `_metadata` bound to `finish` and `message`
bound to the first capture; no other syntax of the finish expression —
parentheses included — is validated. -/
theorem parseAction_finish_regex (s : GoStr)
    (hfin : (str "finish").isPrefixOf (trimSpace s) = true) :
    ParseAction s =
      match findFinish (trimSpace s) with
      | some m => .ok [(str "_metadata", .str (str "finish")),
          (str "message", .str m)]
      | none => .err (str "message not found") := by
  have hdo : (str "do(").isPrefixOf (trimSpace s) = false := by
    by_contra hc
    simp only [Bool.not_eq_false] at hc
    obtain ⟨r1, h1⟩ := List.isPrefixOf_iff_prefix.mp hfin
    obtain ⟨r2, h2⟩ := List.isPrefixOf_iff_prefix.mp hc
    have heq : str "finish" ++ r1 = str "do(" ++ r2 := h1.trans h2.symm
    have hh := congrArg List.head? heq
    rw [show (str "finish" ++ r1 : GoStr).head? = some 'f' from rfl] at hh
    rw [show (str "do(" ++ r2 : GoStr).head? = some 'd' from rfl] at hh
    simp at hh
  unfold ParseAction parseFinishMessage
  simp only [hdo, hfin]
  rcases hff : findFinish (trimSpace s) with _ | m <;> simp [hff]

/-- C10 witness: a finish-prefixed input with no parentheses and arbitrary
surrounding text parses by the regular expression alone. -/
theorem parseAction_finish_regex_witness :
    (str "finish").isPrefixOf
      (trimSpace (str "finishXX text message=\"hi\" tail")) = true ∧
    ParseAction (str "finishXX text message=\"hi\" tail") =
      .ok [(str "_metadata", .str (str "finish")),
        (str "message", .str (str "hi"))] := by
  refine ⟨by decide, ?_⟩
  rw [parseAction_finish_regex _ (by decide)]
  decide

/-- Containment needs the needle to fit inside the haystack. -/
theorem goContains_length_le {s sub : GoStr} (h : goContains s sub = true) :
    sub.length ≤ s.length := (goContains_infix_iff.mp h).length_le

/-- A needle longer than the haystack is never contained. -/
theorem goContains_false_of_long {s sub : GoStr} (h : s.length < sub.length) :
    goContains s sub = false := by
  by_contra hc
  simp only [Bool.not_eq_false] at hc
  exact absurd (goContains_length_le hc) (by omega)

/-- Marker search when neither marker is contained. -/
theorem firstMarkerIn_none {buf : GoStr}
    (h1 : goContains buf (str "finish(message=") = false)
    (h2 : goContains buf (str "do(action=") = false) :
    firstMarkerIn buf = none := by
  unfold firstMarkerIn actionMarkers
  simp [List.find?, h1, h2]

/-- Marker search when only the do-marker is contained. -/
theorem firstMarkerIn_do {buf : GoStr}
    (h1 : goContains buf (str "finish(message=") = false)
    (h2 : goContains buf (str "do(action=") = true) :
    firstMarkerIn buf = some (str "do(action=") := by
  unfold firstMarkerIn actionMarkers
  simp [List.find?, h1, h2]

/-- Every nonempty proper front part of the do-marker is a potential
marker for the withhold test. -/
theorem potential_take_do (n : Nat) (h1 : 1 ≤ n) (h9 : n ≤ 9) :
    isPotentialMarker ((str "do(action=").take n) = true := by
  interval_cases n <;> decide

/-- Every tail (after at most six printed characters) of a prefix of
`hello do(` that has entered the `do(` region is a potential marker. -/
theorem potential_hello_tail (k n : Nat) (hk : k ≤ 6) (h7 : 7 ≤ n)
    (h9 : n ≤ 9) :
    isPotentialMarker (((str "hello do(").take n).drop k) = true := by
  interval_cases k <;> interval_cases n <;> decide

/-- Invariant proof for C5: streaming any chunking of the exact marker text
`do(action=` never prints anything: every proper nonempty prefix of the
marker is withheld by the potential-marker test, and when the marker
completes, the text before it is empty. -/
theorem segC5_aux :
    ∀ (chunks : List GoStr) (consumed : GoStr) (st : SegState),
      consumed ++ chunks.flatten = str "do(action=" →
      st.printed = [] →
      (st.inAction = true ∨ (st.inAction = false ∧ st.buf = consumed)) →
      (List.foldl procDelta st chunks).printed = [] := by
  intro chunks
  induction chunks with
  | nil => intro consumed st _ hpr _; simpa using hpr
  | cons d rest ih =>
    intro consumed st hcat hpr hst
    simp only [List.flatten_cons] at hcat
    simp only [List.foldl_cons]
    by_cases hd : d.isEmpty
    · have hdnil : d = [] := by simpa [List.isEmpty_iff] using hd
      subst hdnil
      rw [show procDelta st [] = st from by unfold procDelta; simp]
      exact ih consumed st (by simpa using hcat) hpr hst
    · rcases hst with hact | ⟨hact, hbuf⟩
      · rw [show procDelta st d = st from by unfold procDelta; simp [hd, hact]]
        exact ih (consumed ++ d) st (by simpa using hcat) hpr (Or.inl hact)
      · have hpfx : (consumed ++ d) <+: str "do(action=" :=
          ⟨rest.flatten, by simpa using hcat⟩
        have hlen : (consumed ++ d).length ≤ 10 := by
          have := hpfx.length_le
          simpa using this
        have htake := List.prefix_iff_eq_take.mp hpfx
        have hfin0 : goContains (st.buf ++ d) (str "finish(message=") = false := by
          apply goContains_false_of_long
          rw [hbuf]
          have h15 : (str "finish(message=").length = 15 := by decide
          have hlen2 : consumed.length + d.length ≤ 10 := by
            simpa using hlen
          simp only [List.length_append, h15]
          omega
        by_cases hdo0 : goContains (st.buf ++ d) (str "do(action=") = true
        · -- the buffer contains the whole marker: it must be exactly the
          -- marker, and the printed prefix before it is empty
          have hbd : st.buf ++ d = consumed ++ d := by rw [hbuf]
          have hlen10 : 10 ≤ (consumed ++ d).length := by
            have := goContains_length_le (hbd ▸ hdo0)
            simpa using this
          have heq : consumed ++ d = str "do(action=" := by
            rw [htake]
            have h10 : (consumed ++ d).length = 10 := by omega
            rw [h10]
            decide
          rw [show procDelta st d =
              { buf := st.buf ++ d, inAction := true,
                printed := st.printed ++
                  (match splitFirst (str "do(action=") (st.buf ++ d) with
                   | some p => p.1
                   | none => st.buf ++ d),
                flips := st.flips + 1 } from by
            unfold procDelta
            simp only [hd, hact, Bool.false_eq_true, if_false, if_true]
            rw [firstMarkerIn_do hfin0 hdo0]]
          have hsp : splitFirst (str "do(action=") (st.buf ++ d) =
              some ([], []) := by
            rw [hbuf, heq]; decide
          refine ih (consumed ++ d) _ (by simpa using hcat) ?_ (Or.inl rfl)
          simp [hsp, hpr]
        · simp only [Bool.not_eq_true] at hdo0
          have hmk := firstMarkerIn_none hfin0 hdo0
          have hne : consumed ++ d ≠ [] := by
            intro hcon
            rcases List.append_eq_nil.mp hcon with ⟨_, h2⟩
            rw [h2] at hd
            simp at hd
          have hpot : isPotentialMarker (st.buf ++ d) = true := by
            rw [hbuf]
            rw [htake]
            have h1 : 1 ≤ (consumed ++ d).length :=
              List.length_pos.mpr hne
            have h9 : (consumed ++ d).length ≤ 9 := by
              by_contra hcon
              have h10 : (consumed ++ d).length = 10 := by omega
              have : consumed ++ d = str "do(action=" := by
                rw [htake, h10]; decide
              rw [hbuf, this] at hdo0
              rw [show goContains (str "do(action=") (str "do(action=") = true
                from by decide] at hdo0
              exact absurd hdo0 (by simp)
            exact potential_take_do _ h1 h9
          rw [show procDelta st d = { st with buf := st.buf ++ d } from by
            unfold procDelta
            simp only [hd, hact, Bool.false_eq_true, if_false, if_true]
            rw [hmk, hpot]
            simp]
          exact ih (consumed ++ d) _ (by simpa using hcat) hpr
            (Or.inr ⟨hact, by simp [hbuf]⟩)

/-- C5: streaming the characters of `do(action=` in any chunking — in
particular one character at a time — through the live segmenter never
emits any thinking text at all: no nonempty proper front part of a marker
split across chunks is ever printed. -/
theorem runSeg_no_partial_marker (chunks : List GoStr)
    (h : chunks.flatten = str "do(action=") :
    (runSeg chunks).printed = [] :=
  segC5_aux chunks [] segInit (by simpa using h) rfl (Or.inr ⟨rfl, rfl⟩)

/-- C5 witness: the marker delivered one character at a time. -/
theorem runSeg_no_partial_marker_witness :
    (runSeg ((str "do(action=").map (fun c => [c]))).printed = [] :=
  runSeg_no_partial_marker _ (by decide)

/-- C4 counterexample: the stream `hello do(` delivered as a single chunk
prints nothing at all (the buffer suffix `do(` could still grow into the
marker `do(action=`, so the whole buffer is withheld) and the phase never
flips to action — not `hello ` printed, not one flip. -/
theorem runSeg_hello_do_cex :
    (runSeg [str "hello do("]).printed = [] ∧
    (runSeg [str "hello do("]).flips = 0 ∧
    (runSeg [str "hello do("]).printed ≠ str "hello " := by
  refine ⟨by decide, by decide, by decide⟩

/-- Invariant proof for C4: over any chunking of `hello do(`, the printed
text is always a prefix of `hello `, the phase never flips (the marker
`do(action=` never completes), and the unprinted remainder sits in the
buffer. -/
theorem segC4_aux :
    ∀ (chunks : List GoStr) (consumed : GoStr) (st : SegState),
      consumed ++ chunks.flatten = str "hello do(" →
      st.inAction = false → st.flips = 0 →
      st.printed ++ st.buf = consumed →
      st.printed <+: str "hello " →
      (List.foldl procDelta st chunks).printed <+: str "hello " ∧
      (List.foldl procDelta st chunks).inAction = false ∧
      (List.foldl procDelta st chunks).flips = 0 := by
  intro chunks
  induction chunks with
  | nil =>
    intro consumed st _ hact hfl _ hppre
    exact ⟨by simpa using hppre, by simpa using hact, by simpa using hfl⟩
  | cons d rest ih =>
    intro consumed st hcat hact hfl hsum hppre
    simp only [List.flatten_cons] at hcat
    simp only [List.foldl_cons]
    by_cases hd : d.isEmpty
    · have hdnil : d = [] := by simpa [List.isEmpty_iff] using hd
      subst hdnil
      rw [show procDelta st [] = st from by unfold procDelta; simp]
      exact ih consumed st (by simpa using hcat) hact hfl hsum hppre
    · have hpfx : (consumed ++ d) <+: str "hello do(" :=
        ⟨rest.flatten, by simpa using hcat⟩
      have hlen : (consumed ++ d).length ≤ 9 := by
        have := hpfx.length_le
        simpa using this
      have htake := List.prefix_iff_eq_take.mp hpfx
      have hsum' : st.printed ++ (st.buf ++ d) = consumed ++ d := by
        rw [← List.append_assoc, hsum]
      have hbuflen : (st.buf ++ d).length ≤ (consumed ++ d).length := by
        rw [← hsum']
        simp
      have hfin0 : goContains (st.buf ++ d) (str "finish(message=") = false := by
        apply goContains_false_of_long
        have h15 : (str "finish(message=").length = 15 := by decide
        omega
      have hdo0 : goContains (st.buf ++ d) (str "do(action=") = false := by
        apply goContains_false_of_long
        have h10 : (str "do(action=").length = 10 := by decide
        omega
      have hmk := firstMarkerIn_none hfin0 hdo0
      by_cases hpot : isPotentialMarker (st.buf ++ d) = true
      · -- withheld: printed unchanged, buffer grows
        rw [show procDelta st d = { st with buf := st.buf ++ d } from by
          unfold procDelta
          simp only [hd, hact, Bool.false_eq_true, if_false, if_true]
          rw [hmk, hpot]
          simp]
        exact ih (consumed ++ d) _ (by simpa using hcat) hact hfl
          (by simpa using hsum') hppre
      · -- printed: the whole buffer is flushed; it cannot have entered the
        -- `do(` region, so the new printed text is still a prefix of `hello `
        simp only [Bool.not_eq_true] at hpot
        rw [show procDelta st d =
            { buf := [], inAction := false,
              printed := st.printed ++ (st.buf ++ d), flips := st.flips } from by
          unfold procDelta
          simp only [hd, hact, Bool.false_eq_true, if_false, if_true]
          rw [hmk, hpot]
          simp]
        have hk6 : st.printed.length ≤ 6 := by
          have := hppre.length_le
          simpa using this
        have hn7 : (consumed ++ d).length ≤ 6 := by
          by_contra hcon
          have hd7 : 7 ≤ (consumed ++ d).length := by omega
          have hdrop : st.buf ++ d =
              ((str "hello do(").take (consumed ++ d).length).drop
                st.printed.length := by
            rw [← htake, ← hsum']
            exact (List.drop_left st.printed (st.buf ++ d)).symm
          have := potential_hello_tail st.printed.length (consumed ++ d).length
            hk6 hd7 hlen
          rw [← hdrop] at this
          rw [this] at hpot
          exact absurd hpot (by simp)
        have hpre6 : (consumed ++ d) <+: str "hello " := by
          rw [htake]
          have hmin : min (consumed ++ d).length 6 = (consumed ++ d).length := by
            omega
          calc (str "hello do(").take (consumed ++ d).length
              = ((str "hello do(").take 6).take (consumed ++ d).length := by
                rw [List.take_take]
                rw [hmin]
            _ <+: (str "hello do(").take 6 := List.take_prefix _ _
        refine ih (consumed ++ d) _ (by simpa using hcat) rfl (by simpa using hfl)
          (by simpa using hsum') ?_
        show st.printed ++ (st.buf ++ d) <+: str "hello "
        rw [hsum']
        exact hpre6

/-- C4 (amended): for every chunking of the stream `hello do(`, the live
segmenter prints some prefix of `hello ` (which prefix depends on the chunk
boundaries — a single chunk prints nothing) and never transitions to
action phase, because the marker `do(action=` never completes; the claimed
behaviour — exactly `hello ` printed and exactly one flip — does not hold. -/
theorem runSeg_hello_do (chunks : List GoStr)
    (h : chunks.flatten = str "hello do(") :
    (runSeg chunks).printed <+: str "hello " ∧
    (runSeg chunks).inAction = false ∧
    (runSeg chunks).flips = 0 :=
  segC4_aux chunks [] segInit (by simpa using h) rfl rfl rfl
    (by simp [segInit])

/-- C4 witness: the chunking that splits right after `hello `. -/
theorem runSeg_hello_do_witness :
    (runSeg [str "hello ", str "do("]).printed <+: str "hello " ∧
    (runSeg [str "hello ", str "do("]).inAction = false ∧
    (runSeg [str "hello ", str "do("]).flips = 0 :=
  runSeg_hello_do [str "hello ", str "do("] (by decide)

/-- Fuelled little-endian base-10 digit list of a natural number
(kernel-reducible; `natDigits` supplies sufficient fuel). -/
def natDigitsF : Nat → Nat → List Nat
  | 0, _ => []
  | _ + 1, 0 => []
  | fuel + 1, n + 1 => (n + 1) % 10 :: natDigitsF fuel ((n + 1) / 10)

/-- Little-endian base-10 digits of a natural number. -/
def natDigits (n : Nat) : List Nat := natDigitsF n n

/-- The ASCII character of one digit value. -/
def digitCh (d : Nat) : Char := Char.ofNat (48 + d)

/-- Decimal rendering of a natural number, most significant digit first. -/
def natRepr (n : Nat) : GoStr :=
  if n = 0 then ['0'] else ((natDigits n).map digitCh).reverse

/-- Decimal rendering of an integer. -/
def intRepr (i : Int) : GoStr :=
  if i < 0 then '-' :: natRepr i.natAbs else natRepr i.toNat

/-- The fuelled digit computation agrees with `Nat.digits`. -/
theorem natDigitsF_eq_digits :
    ∀ (fuel n : Nat), n ≤ fuel → natDigitsF fuel n = Nat.digits 10 n := by
  intro fuel
  induction fuel with
  | zero =>
    intro n hn
    have : n = 0 := Nat.le_zero.mp hn
    subst this
    simp [natDigitsF]
  | succ f ih =>
    intro n hn
    cases n with
    | zero => simp [natDigitsF]
    | succ m =>
      have hlt : (m + 1) / 10 ≤ f := by
        have h1 : (m + 1) / 10 ≤ m := by
          have := Nat.div_le_self (m + 1) 10
          have h2 : (m + 1) / 10 < m + 1 :=
            Nat.div_lt_self (by omega) (by omega)
          omega
        omega
      rw [show natDigitsF (f + 1) (m + 1) =
        (m + 1) % 10 :: natDigitsF f ((m + 1) / 10) from rfl]
      rw [ih _ hlt]
      rw [Nat.digits_def' (by omega : 1 < 10) (by omega : 0 < m + 1)]

/-- The digit list of a natural number agrees with `Nat.digits`. -/
theorem natDigits_eq_digits (n : Nat) : natDigits n = Nat.digits 10 n :=
  natDigitsF_eq_digits n n le_rfl

/-- Digit characters read back as their value. -/
theorem digitCh_toNat {d : Nat} (h : d < 10) : (digitCh d).toNat - 48 = d := by
  interval_cases d <;> decide

/-- Digit characters satisfy `Char.isDigit`. -/
theorem digitCh_isDigit {d : Nat} (h : d < 10) : (digitCh d).isDigit = true := by
  interval_cases d <;> decide

/-- Folding the digit-value step over a rendered digit string recovers the
number (with the accumulator scaled by the width). -/
theorem foldl_digitCh_reverse :
    ∀ (D : List Nat), (∀ d ∈ D, d < 10) → ∀ acc : Nat,
      List.foldl (fun a c => a * 10 + (c.toNat - 48)) acc
        ((D.map digitCh).reverse) =
      acc * 10 ^ D.length + Nat.ofDigits 10 D := by
  intro D
  induction D with
  | nil => intro _ acc; simp [Nat.ofDigits]
  | cons d D' ih =>
    intro hlt acc
    have hd : d < 10 := hlt d (by simp)
    have hD' : ∀ x ∈ D', x < 10 := fun x hx => hlt x (by simp [hx])
    simp only [List.map_cons, List.reverse_cons, List.foldl_append,
      List.foldl_cons, List.foldl_nil]
    rw [ih hD' acc]
    rw [digitCh_toNat hd]
    rw [Nat.ofDigits_cons]
    simp only [List.length_cons, pow_succ]
    ring

/-- Reading the decimal rendering back gives the number. -/
theorem digitsVal_natRepr (n : Nat) : digitsVal (natRepr n) = n := by
  by_cases h0 : n = 0
  · subst h0; decide
  · unfold natRepr digitsVal
    rw [if_neg h0, natDigits_eq_digits]
    have hlt : ∀ d ∈ Nat.digits 10 n, d < 10 :=
      fun d hd => Nat.digits_lt_base (by omega) hd
    rw [foldl_digitCh_reverse _ hlt 0]
    simp [Nat.ofDigits_digits]

/-- Every character of the decimal rendering of a natural is a digit. -/
theorem natRepr_all_digit (n : Nat) : ∀ c ∈ natRepr n, c.isDigit = true := by
  intro c hc
  unfold natRepr at hc
  by_cases h0 : n = 0
  · rw [if_pos h0] at hc
    simp only [List.mem_singleton] at hc
    subst hc; decide
  · rw [if_neg h0, natDigits_eq_digits] at hc
    rw [List.mem_reverse, List.mem_map] at hc
    obtain ⟨d, hd, rfl⟩ := hc
    exact digitCh_isDigit (Nat.digits_lt_base (by omega) hd)

/-- The decimal rendering of a natural is nonempty. -/
theorem natRepr_ne_nil (n : Nat) : natRepr n ≠ [] := by
  unfold natRepr
  by_cases h0 : n = 0
  · simp [h0]
  · rw [if_neg h0, natDigits_eq_digits]
    simp [Nat.digits_ne_nil_iff_ne_zero.mpr h0]

/-- Atoi only ever returns values in the signed 64-bit range. -/
theorem goAtoi_range {s : GoStr} {v : Int} (h : goAtoi s = some v) :
    inI64Range v := by
  simp only [goAtoi] at h
  split at h
  · simp at h
  · split at h <;> split at h <;>
      first
        | (rename_i hr; simp only [Option.some.injEq] at h; exact h ▸ hr)
        | simp at h

/-- A digit character is not a sign character. -/
theorem isDigit_ne_sign {c : Char} (h : c.isDigit = true) :
    c ≠ '+' ∧ c ≠ '-' := by
  constructor <;> intro hcon <;> subst hcon <;> exact absurd h (by decide)

/-- Stripping a minus sign. -/
theorem signSplit_minus (r : GoStr) : signSplit ('-' :: r) = (true, r) := by
  simp [signSplit]

/-- Stripping a sign from an unsigned string. -/
theorem signSplit_nosign {c : Char} (r : GoStr) (hp : c ≠ '+') (hm : c ≠ '-') :
    signSplit (c :: r) = (false, c :: r) := by
  simp only [signSplit]
  rw [if_neg hp, if_neg hm]

/-- Shape of Atoi on a negative decimal with digit content. -/
theorem goAtoi_neg_eq {s ds : GoStr} (hs : signSplit s = (true, ds))
    (hne : ds ≠ []) (hall : ds.all Char.isDigit = true) :
    goAtoi s = if inI64Range (-(digitsVal ds : Int))
      then some (-(digitsVal ds : Int)) else none := by
  simp only [goAtoi, hs]
  simp [hall, List.isEmpty_iff, hne]

/-- Shape of Atoi on an unsigned decimal with digit content. -/
theorem goAtoi_pos_eq {s ds : GoStr} (hs : signSplit s = (false, ds))
    (hne : ds ≠ []) (hall : ds.all Char.isDigit = true) :
    goAtoi s = if inI64Range ((digitsVal ds : Int))
      then some ((digitsVal ds : Int)) else none := by
  simp only [goAtoi, hs]
  simp [hall, List.isEmpty_iff, hne]

/-- Atoi reads the decimal rendering of an in-range integer back to the
same integer. -/
theorem goAtoi_intRepr {i : Int} (h : inI64Range i) :
    goAtoi (intRepr i) = some i := by
  obtain ⟨hlo, hhi⟩ := h
  by_cases hneg : i < 0
  · rcases hrep : natRepr i.natAbs with _ | ⟨c, rest⟩
    · exact absurd hrep (natRepr_ne_nil _)
    · have hall : (c :: rest).all Char.isDigit = true := by
        rw [← hrep]
        simp only [List.all_eq_true]
        exact fun x hx => natRepr_all_digit _ x hx
      have hval : digitsVal (c :: rest) = i.natAbs := by
        rw [← hrep, digitsVal_natRepr]
      have habs : -((i.natAbs : Nat) : Int) = i := by omega
      unfold intRepr
      rw [if_pos hneg, hrep]
      rw [goAtoi_neg_eq (signSplit_minus (c :: rest)) (by simp) hall]
      rw [hval, habs]
      rw [if_pos ⟨hlo, hhi⟩]
  · rcases hrep : natRepr i.toNat with _ | ⟨c, rest⟩
    · exact absurd hrep (natRepr_ne_nil _)
    · have hcd : c.isDigit = true := by
        apply natRepr_all_digit i.toNat
        rw [hrep]; simp
      obtain ⟨hcp, hcm⟩ := isDigit_ne_sign hcd
      have hall : (c :: rest).all Char.isDigit = true := by
        rw [← hrep]
        simp only [List.all_eq_true]
        exact fun x hx => natRepr_all_digit _ x hx
      have hval : digitsVal (c :: rest) = i.toNat := by
        rw [← hrep, digitsVal_natRepr]
      have htn : ((i.toNat : Nat) : Int) = i := Int.toNat_of_nonneg (by omega)
      unfold intRepr
      rw [if_neg hneg, hrep]
      rw [goAtoi_pos_eq (signSplit_nosign rest hcp hcm) (by simp) hall]
      rw [hval, htn]
      rw [if_pos ⟨hlo, hhi⟩]

/-- Join a list of strings with a separator between consecutive elements
(inverse of `splitGo` when no element contains the separator). -/
def joinSep (sep : GoStr) : List GoStr → GoStr
  | [] => []
  | [t] => t
  | t :: u :: ts => t ++ sep ++ joinSep sep (u :: ts)

/-- Modelled from the spec: the repository has no serializer; spec section 8
describes round-tripping "the parsed Action back into key=value tokens
(original key order)".  A literal value is re-rendered in the textual form
the parser accepts: strings re-quoted verbatim, booleans as `true`/`false`,
integers in decimal, integer sequences as `[a,b,...]` without spaces (the
argument splitter would break on `", "`), and a float by the accepted
source token recorded in the `Lit.float` constructor. -/
def serializeLit : Lit → GoStr
  | .str s => '"' :: s ++ ['"']
  | .boolean true => str "true"
  | .boolean false => str "false"
  | .intArr xs => '[' :: joinSep [','] (xs.map intRepr) ++ [']']
  | .int n => intRepr n
  | .float tok => tok

instance : Inhabited Lit := ⟨.boolean false⟩

/-- Modelled from the spec: one `key=value` token of the serialized form. -/
def entryToken (e : GoStr × Lit) : GoStr := e.1 ++ '=' :: serializeLit e.2

/-- Modelled from the spec: the serialized `do(...)` expression listing the
Action's `key=value` tokens in original key order, separated by `", "`. -/
def serializeAction (a : Action) : GoStr :=
  str "do(" ++ joinSep (str ", ") (a.map entryToken) ++ str ")"

/-- Splitting at the single-character separator `,` finds the boundary
occurrence first when the left part is clean. -/
theorem splitFirst_comma_append {t z : GoStr}
    (ht : goContains t (str ",") = false) :
    splitFirst (str ",") (t ++ str "," ++ z) = some (t, z) := by
  induction t with
  | nil =>
    rw [show (([] : GoStr) ++ str "," ++ z) = ',' :: z from rfl]
    unfold splitFirst
    rw [if_pos (by simp [str, List.isPrefixOf])]
    simp [str]
  | cons c t' ih =>
    simp only [goContains, Bool.or_eq_false_iff] at ht
    obtain ⟨h1, h2⟩ := ht
    rw [show ((c :: t') ++ str "," ++ z) = c :: (t' ++ str "," ++ z) from by simp]
    unfold splitFirst
    have hnp : (str ",").isPrefixOf (c :: (t' ++ str "," ++ z)) = false := by
      have hc : c ≠ ',' := by
        intro hcon
        subst hcon
        simp [str, List.isPrefixOf] at h1
      simp [str, List.isPrefixOf, hc, Ne.symm hc]
    rw [hnp]
    simp only [Bool.false_eq_true, if_false, ih h2, Option.map_some']

/-- Splitting at the separator `", "` finds the boundary occurrence first
when the left part is clean: no occurrence can straddle the boundary,
because that would need a comma-comma pair. -/
theorem splitFirst_commaSpace_append {t z : GoStr}
    (ht : goContains t (str ", ") = false) :
    splitFirst (str ", ") (t ++ str ", " ++ z) = some (t, z) := by
  induction t with
  | nil =>
    rw [show (([] : GoStr) ++ str ", " ++ z) = ',' :: ' ' :: z from rfl]
    unfold splitFirst
    rw [if_pos (by simp [str, List.isPrefixOf])]
    simp [str]
  | cons c t' ih =>
    simp only [goContains, Bool.or_eq_false_iff] at ht
    obtain ⟨h1, h2⟩ := ht
    rw [show ((c :: t') ++ str ", " ++ z) = c :: (t' ++ str ", " ++ z) from by
      simp]
    unfold splitFirst
    have hnp : (str ", ").isPrefixOf (c :: (t' ++ str ", " ++ z)) = false := by
      by_cases hc : c = ','
      · subst hc
        cases t' with
        | nil =>
          rw [show (([] : GoStr) ++ str ", " ++ z) = ',' :: ' ' :: z from rfl]
          simp [str, List.isPrefixOf]
        | cons d t'' =>
          have hd : d ≠ ' ' := by
            intro hcon
            subst hcon
            simp [str, List.isPrefixOf] at h1
          rw [show ((d :: t'') ++ str ", " ++ z) =
            d :: (t'' ++ str ", " ++ z) from by simp]
          simp [str, List.isPrefixOf, hd, Ne.symm hd]
      · simp [str, List.isPrefixOf, hc, Ne.symm hc]
    rw [hnp]
    simp only [Bool.false_eq_true, if_false, ih h2, Option.map_some']

/-- Splitting the comma-join of clean pieces recovers the pieces. -/
theorem splitGo_joinSep_comma :
    ∀ (ps : List GoStr), ps ≠ [] →
      (∀ p ∈ ps, goContains p (str ",") = false) →
      splitGo (str ",") (joinSep (str ",") ps) = ps := by
  intro ps
  induction ps with
  | nil => intro h; exact absurd rfl h
  | cons p rest ih =>
    intro _ hcl
    cases rest with
    | nil =>
      rw [show joinSep (str ",") [p] = p from rfl]
      exact splitGo_single (hcl p (by simp))
    | cons q rest' =>
      rw [show joinSep (str ",") (p :: q :: rest') =
        p ++ str "," ++ joinSep (str ",") (q :: rest') from rfl]
      rw [splitGo_cons (by decide)
        (splitFirst_comma_append (hcl p (by simp)))]
      rw [ih (by simp) (fun x hx => hcl x (by simp [hx]))]

/-- Splitting the `", "`-join of clean pieces recovers the pieces. -/
theorem splitGo_joinSep_commaSpace :
    ∀ (ps : List GoStr), ps ≠ [] →
      (∀ p ∈ ps, goContains p (str ", ") = false) →
      splitGo (str ", ") (joinSep (str ", ") ps) = ps := by
  intro ps
  induction ps with
  | nil => intro h; exact absurd rfl h
  | cons p rest ih =>
    intro _ hcl
    cases rest with
    | nil =>
      rw [show joinSep (str ", ") [p] = p from rfl]
      exact splitGo_single (hcl p (by simp))
    | cons q rest' =>
      rw [show joinSep (str ", ") (p :: q :: rest') =
        p ++ str ", " ++ joinSep (str ", ") (q :: rest') from rfl]
      rw [splitGo_cons (by decide)
        (splitFirst_commaSpace_append (hcl p (by simp)))]
      rw [ih (by simp) (fun x hx => hcl x (by simp [hx]))]

/-- A string missing some character of the needle cannot contain it. -/
theorem goContains_false_of_not_mem {s sub : GoStr} {x : Char}
    (hx : x ∈ sub) (hs : x ∉ s) : goContains s sub = false := by
  by_contra hc
  simp only [Bool.not_eq_false] at hc
  exact hs ((goContains_infix_iff.mp hc).mem hx)

/-- Containment of `", "` cannot be created by appending two clean strings
unless the boundary itself forms the separator. -/
theorem goContains_commaSpace_append {x y : GoStr}
    (hx : goContains x (str ", ") = false)
    (hy : goContains y (str ", ") = false)
    (hb : x.getLast? ≠ some ',' ∨ y.head? ≠ some ' ') :
    goContains (x ++ y) (str ", ") = false := by
  induction x with
  | nil => simpa using hy
  | cons c x' ih =>
    simp only [goContains, Bool.or_eq_false_iff] at hx
    obtain ⟨h1, h2⟩ := hx
    rw [show ((c :: x') ++ y) = c :: (x' ++ y) from by simp]
    simp only [goContains, Bool.or_eq_false_iff]
    constructor
    · by_cases hc : c = ','
      · subst hc
        cases x' with
        | nil =>
          rcases hb with hb | hb
          · simp at hb
          · cases y with
            | nil => simp [str, List.isPrefixOf]
            | cons d y' =>
              have hd : d ≠ ' ' := by
                intro hcon
                subst hcon
                simp at hb
              simp [str, List.isPrefixOf, hd, Ne.symm hd]
        | cons d x'' =>
          have hd : d ≠ ' ' := by
            intro hcon
            subst hcon
            simp [str, List.isPrefixOf] at h1
          rw [show ((d :: x'') ++ y) = d :: (x'' ++ y) from by simp]
          simp [str, List.isPrefixOf, hd, Ne.symm hd]
      · simp [str, List.isPrefixOf, hc, Ne.symm hc]
    · apply ih h2
      cases x' with
      | nil =>
        left
        simp
      | cons d x'' =>
        rcases hb with hb | hb
        · left
          rw [List.getLast?_cons_cons] at hb
          exact hb
        · right
          exact hb

/-- Dropping twice drops once. -/
theorem dropWhile_idem (p : Char → Bool) (l : GoStr) :
    (l.dropWhile p).dropWhile p = l.dropWhile p := by
  induction l with
  | nil => rfl
  | cons c t ih =>
    by_cases hp : p c
    · simp [List.dropWhile_cons, hp, ih]
    · simp [List.dropWhile_cons, hp]

/-- The head surviving a `dropWhile` fails the predicate. -/
theorem dropWhile_head_not {p : Char → Bool} {l : GoStr} {c : Char} {r : GoStr}
    (h : l.dropWhile p = c :: r) : p c = false := by
  induction l with
  | nil => simp at h
  | cons a t ih =>
    by_cases hp : p a
    · rw [List.dropWhile_cons, if_pos hp] at h
      exact ih h
    · rw [List.dropWhile_cons, if_neg hp] at h
      injection h with h1 _
      subst h1
      simpa using hp

/-- Trimming is idempotent. -/
theorem trimSpace_idem (s : GoStr) : trimSpace (trimSpace s) = trimSpace s := by
  unfold trimSpace
  have h2 : ((((s.dropWhile goIsSpace).reverse.dropWhile goIsSpace).reverse).reverse).dropWhile
      goIsSpace = (((s.dropWhile goIsSpace).reverse.dropWhile goIsSpace).reverse).reverse := by
    rw [List.reverse_reverse]
    exact dropWhile_idem _ _
  have h1 : (((s.dropWhile goIsSpace).reverse.dropWhile goIsSpace).reverse).dropWhile
      goIsSpace = ((s.dropWhile goIsSpace).reverse.dropWhile goIsSpace).reverse := by
    rcases hBc : ((s.dropWhile goIsSpace).reverse.dropWhile goIsSpace).reverse with _ | ⟨c, r⟩
    · rfl
    · have hpre : (c :: r) <+: s.dropWhile goIsSpace := by
        have hsuf : (s.dropWhile goIsSpace).reverse.dropWhile goIsSpace <:+
            (s.dropWhile goIsSpace).reverse := List.dropWhile_suffix goIsSpace
        have hpp := List.reverse_prefix.mpr hsuf
        rw [List.reverse_reverse] at hpp
        rw [← hBc]
        exact hpp
      obtain ⟨rest, hrest⟩ := hpre
      have hc : goIsSpace c = false := by
        apply dropWhile_head_not (l := s) (r := r ++ rest)
        rw [← hrest]
        simp
      exact dropWhile_cons_of_neg hc
  rw [h1, h2, List.reverse_reverse]

/-- Dropping an actual sign character. -/
theorem dropSign_cons_sign {x : Char} {r : GoStr}
    (hs : (x = '+' || x = '-') = true) : dropSign (x :: r) = r := by
  simp only [dropSign]
  rw [if_pos hs]

/-- Dropping a sign from an unsigned string is the identity. -/
theorem dropSign_cons_nosign {x : Char} {r : GoStr}
    (hs : ¬((x = '+' || x = '-') = true)) : dropSign (x :: r) = x :: r := by
  simp only [dropSign]
  rw [if_neg hs]

/-- Characters allowed in a token accepted by the float grammar. -/
def floatChOk (c : Char) : Prop :=
  c.isDigit = true ∨ c ∈ (['+', '-', '.', 'e', 'E'] : List Char) ∨
    c.toLower ∈ (['i', 'n', 'f', 't', 'y', 'a'] : List Char)

/-- Characters of the exponent part are float characters. -/
theorem expOk_chars {r : GoStr} (h : expOk r = true) : ∀ c ∈ r, floatChOk c := by
  cases r with
  | nil => simp
  | cons e r' =>
    unfold expOk at h
    simp only [Bool.and_eq_true, Bool.or_eq_true, decide_eq_true_eq] at h
    obtain ⟨he, _, hall⟩ := h
    intro c hc
    rcases List.mem_cons.mp hc with rfl | hc
    · rcases he with rfl | rfl <;> (right; left; decide)
    · cases r' with
      | nil => simp at hc
      | cons x rr =>
        by_cases hs : (x = '+' || x = '-') = true
        · rw [dropSign_cons_sign hs] at hall
          rcases List.mem_cons.mp hc with rfl | hc
          · right; left
            simp only [Bool.or_eq_true, decide_eq_true_eq] at hs
            rcases hs with rfl | rfl <;> simp
          · left
            exact (List.all_eq_true.mp hall) c hc
        · rw [dropSign_cons_nosign hs] at hall
          left
          exact (List.all_eq_true.mp hall) c hc

/-- Characters of an accepted decimal float are float characters. -/
theorem decFloatOk_chars {t : GoStr} (h : decFloatOk t = true) :
    ∀ c ∈ t, floatChOk c := by
  intro c hc
  have hsplit := List.takeWhile_append_dropWhile (p := Char.isDigit) (l := t)
  rw [← hsplit] at hc
  unfold decFloatOk at h
  rcases List.mem_append.mp hc with hc | hc
  · exact Or.inl (List.mem_takeWhile_imp hc)
  · rcases hr1 : t.dropWhile Char.isDigit with _ | ⟨x, r2⟩
    · rw [hr1] at hc; simp at hc
    · rw [hr1] at hc
      simp only [hr1] at h
      by_cases hx : x = '.'
      · subst hx
        rw [if_pos rfl] at h
        simp only [Bool.and_eq_true] at h
        obtain ⟨_, hexp⟩ := h
        rcases List.mem_cons.mp hc with rfl | hc
        · right; left; simp
        · have hsplit2 := List.takeWhile_append_dropWhile
            (p := Char.isDigit) (l := r2)
          rw [← hsplit2] at hc
          rcases List.mem_append.mp hc with hc | hc
          · exact Or.inl (List.mem_takeWhile_imp hc)
          · exact expOk_chars hexp c hc
      · rw [if_neg hx] at h
        simp only [Bool.and_eq_true] at h
        exact expOk_chars h.2 c hc

/-- Characters of a special float value are float characters. -/
theorem isInfNan_chars {t : GoStr} (h : isInfNan t = true) :
    ∀ c ∈ t, floatChOk c := by
  unfold isInfNan at h
  simp only [Bool.or_eq_true, decide_eq_true_eq] at h
  intro c hc
  right; right
  have hmem : c.toLower ∈ lowerStr t := by
    unfold lowerStr
    exact List.mem_map_of_mem Char.toLower hc
  rcases h with (h | h) | h <;> rw [h] at hmem
  · rw [show str "inf" = ['i', 'n', 'f'] from rfl] at hmem
    simp only [List.mem_cons, List.not_mem_nil, or_false] at hmem
    rcases hmem with h1 | h1 | h1 <;> simp [h1]
  · rw [show str "infinity" =
      ['i', 'n', 'f', 'i', 'n', 'i', 't', 'y'] from rfl] at hmem
    simp only [List.mem_cons, List.not_mem_nil, or_false] at hmem
    rcases hmem with h1 | h1 | h1 | h1 | h1 | h1 | h1 | h1 <;> simp [h1]
  · rw [show str "nan" = ['n', 'a', 'n'] from rfl] at hmem
    simp only [List.mem_cons, List.not_mem_nil, or_false] at hmem
    rcases hmem with h1 | h1 | h1 <;> simp [h1]

/-- Characters of any token the float grammar accepts are float
characters. -/
theorem goParseFloatOk_chars {t : GoStr} (h : goParseFloatOk t = true) :
    ∀ c ∈ t, floatChOk c := by
  unfold goParseFloatOk at h
  simp only [Bool.or_eq_true] at h
  intro c hc
  cases t with
  | nil => simp at hc
  | cons x r =>
    by_cases hs : (x = '+' || x = '-') = true
    · rw [dropSign_cons_sign hs] at h
      rcases List.mem_cons.mp hc with rfl | hc
      · right; left
        simp only [Bool.or_eq_true, decide_eq_true_eq] at hs
        rcases hs with rfl | rfl <;> simp
      · rcases h with h | h
        · exact isInfNan_chars h c hc
        · exact decFloatOk_chars h c hc
    · rw [dropSign_cons_nosign hs] at h
      rcases h with h | h
      · exact isInfNan_chars h c hc
      · exact decFloatOk_chars h c hc

/-- Float characters are not whitespace. -/
theorem floatChOk_not_space {c : Char} (h : floatChOk c) :
    goIsSpace c = false := by
  by_contra hcon
  simp only [Bool.not_eq_false] at hcon
  unfold goIsSpace at hcon
  simp only [Bool.or_eq_true, decide_eq_true_eq] at hcon
  unfold floatChOk at h
  have hcon' : c = ' ' ∨ c = '\t' ∨ c = '\n' ∨ c = '\x0b' ∨ c = '\x0c' ∨
      c = '\r' ∨ c = '\x85' ∨ c = '\xa0' := by tauto
  rcases hcon' with rfl | rfl | rfl | rfl | rfl | rfl | rfl | rfl <;>
    rcases h with h | h | h <;> exact absurd h (by decide)

/-- Slicing off the first and last character of a wrapped string. -/
theorem goSlice_wrap (c d : Char) (mid : GoStr) :
    goSliceStr (c :: mid ++ [d]) 1 ((c :: mid ++ [d] : GoStr).length - 1) =
      .ok mid := by
  unfold goSliceStr
  have hlen : (c :: mid ++ [d] : GoStr).length = mid.length + 2 := by simp
  rw [hlen]
  rw [if_pos (by omega)]
  have h3 : ((c :: mid ++ [d] : GoStr).drop 1).take (mid.length + 2 - 1 - 1) =
      mid := by
    have h2 : mid.length + 2 - 1 - 1 = mid.length := by omega
    rw [h2]
    show (mid ++ [d]).take mid.length = mid
    simpa using List.take_left mid [d]
  rw [h3]

/-- Splitting at the single-character separator `=` finds the boundary
occurrence first when the left part is clean. -/
theorem splitFirst_eqch_append {t z : GoStr}
    (ht : goContains t (str "=") = false) :
    splitFirst (str "=") (t ++ str "=" ++ z) = some (t, z) := by
  induction t with
  | nil =>
    rw [show (([] : GoStr) ++ str "=" ++ z) = '=' :: z from rfl]
    unfold splitFirst
    rw [if_pos (by simp [str, List.isPrefixOf])]
    simp [str]
  | cons c t' ih =>
    simp only [goContains, Bool.or_eq_false_iff] at ht
    obtain ⟨h1, h2⟩ := ht
    rw [show ((c :: t') ++ str "=" ++ z) = c :: (t' ++ str "=" ++ z) from by simp]
    unfold splitFirst
    have hnp : (str "=").isPrefixOf (c :: (t' ++ str "=" ++ z)) = false := by
      have hc : c ≠ '=' := by
        intro hcon
        subst hcon
        simp [str, List.isPrefixOf] at h1
      simp [str, List.isPrefixOf, hc, Ne.symm hc]
    rw [hnp]
    simp only [Bool.false_eq_true, if_false, ih h2, Option.map_some']

/-- Characters of a decimal integer rendering. -/
theorem intRepr_chars {i : Int} : ∀ c ∈ intRepr i,
    c.isDigit = true ∨ c = '-' := by
  intro c hc
  unfold intRepr at hc
  by_cases hn : i < 0
  · rw [if_pos hn] at hc
    rcases List.mem_cons.mp hc with rfl | hc
    · right; rfl
    · left; exact natRepr_all_digit _ c hc
  · rw [if_neg hn] at hc
    left; exact natRepr_all_digit _ c hc

/-- Digit characters are not whitespace. -/
theorem isDigit_not_space {c : Char} (h : c.isDigit = true) :
    goIsSpace c = false :=
  floatChOk_not_space (Or.inl h)

/-- Integer renderings contain no whitespace. -/
theorem intRepr_no_space {i : Int} : ∀ c ∈ intRepr i, goIsSpace c = false := by
  intro c hc
  rcases intRepr_chars c hc with h | rfl
  · exact isDigit_not_space h
  · decide

/-- Integer renderings contain no comma. -/
theorem intRepr_no_comma {i : Int} : ∀ c ∈ intRepr i, c ≠ ',' := by
  intro c hc hcon
  subst hcon
  rcases intRepr_chars ',' hc with h | h
  · exact absurd h (by decide)
  · exact absurd h (by decide)

/-- Integer renderings are nonempty. -/
theorem intRepr_ne_nil (i : Int) : intRepr i ≠ [] := by
  unfold intRepr
  by_cases hn : i < 0
  · simp [hn]
  · rw [if_neg hn]
    exact natRepr_ne_nil _

/-- The serialized token of a value: trimming it is the identity, the
literal parser reads it back to the same value, and it contains no
argument separator `", "`. -/
def goodVal (v : Lit) : Prop :=
  trimSpace (serializeLit v) = serializeLit v ∧
  parseLiteral (serializeLit v) = .ok v ∧
  goContains (serializeLit v) (str ", ") = false

/-- The joined integer-array content has no whitespace. -/
theorem arrJoin_no_space {xs : List Int} :
    ∀ c ∈ joinSep [','] (xs.map intRepr), goIsSpace c = false := by
  induction xs with
  | nil => intro c hc; simp [joinSep] at hc
  | cons x rest ih =>
    intro c hc
    cases rest with
    | nil =>
      rw [show joinSep [','] ([x].map intRepr) = intRepr x from rfl] at hc
      exact intRepr_no_space c hc
    | cons y rest' =>
      rw [show joinSep [','] ((x :: y :: rest').map intRepr) =
        intRepr x ++ [','] ++ joinSep [','] ((y :: rest').map intRepr)
        from rfl] at hc
      rcases List.mem_append.mp hc with hc | hc
      · rcases List.mem_append.mp hc with hc | hc
        · exact intRepr_no_space c hc
        · simp only [List.mem_singleton] at hc
          subst hc; decide
      · exact ih c hc

/-- Characters of the serialized integer-array token. -/
theorem arrTok_chars {xs : List Int} :
    ∀ c ∈ ('[' :: joinSep [','] (xs.map intRepr) ++ [']'] : GoStr),
      goIsSpace c = false := by
  intro c hc
  rcases List.mem_cons.mp hc with rfl | hc
  · decide
  · rcases List.mem_append.mp hc with hc | hc
    · exact arrJoin_no_space c hc
    · simp only [List.mem_singleton] at hc
      subst hc; decide

/-- Reading the serialized pieces of an in-range integer list back. -/
theorem goIntPieces_map_intRepr {xs : List Int}
    (hr : ∀ x ∈ xs, inI64Range x) :
    goIntPieces (xs.map intRepr) = .ok xs := by
  induction xs with
  | nil => rfl
  | cons x rest ih =>
    simp only [List.map_cons, goIntPieces]
    rw [trimSpace_eq_self_of_all (intRepr_no_space (i := x))]
    rw [goAtoi_intRepr (hr x (by simp))]
    rw [ih (fun y hy => hr y (by simp [hy]))]

/-- A nonempty map list joins to a nonempty string when pieces are
nonempty. -/
theorem joinSep_comma_ne_nil {x : Int} {rest : List Int} :
    joinSep [','] ((x :: rest).map intRepr) ≠ [] := by
  cases rest with
  | nil =>
    rw [show joinSep [','] ([x].map intRepr) = intRepr x from rfl]
    exact intRepr_ne_nil x
  | cons y rest' =>
    rw [show joinSep [','] ((x :: y :: rest').map intRepr) =
      intRepr x ++ [','] ++ joinSep [','] ((y :: rest').map intRepr) from rfl]
    intro hcon
    rcases List.append_eq_nil.mp hcon with ⟨h1, _⟩
    rcases List.append_eq_nil.mp h1 with ⟨_, h3⟩
    exact absurd h3 (by simp)

/-- The serialized integer-array token parses back to the array. -/
theorem parseLiteral_serialized_intArr {xs : List Int}
    (hr : ∀ x ∈ xs, inI64Range x) :
    parseLiteral ('[' :: joinSep [','] (xs.map intRepr) ++ [']']) =
      .ok (.intArr xs) := by
  have hq : ((str "\"").isPrefixOf
      ('[' :: joinSep [','] (xs.map intRepr) ++ [']']) &&
      (str "\"").isSuffixOf
      ('[' :: joinSep [','] (xs.map intRepr) ++ [']'])) = false := by
    simp [str, List.isPrefixOf]
  have ht : ('[' :: joinSep [','] (xs.map intRepr) ++ [']'] : GoStr) ≠
      str "true" := by
    intro hcon
    have := congrArg List.head? hcon
    simp only [List.head?_cons] at this
    rw [show (str "true").head? = some 't' from rfl] at this
    simp at this
  have hf : ('[' :: joinSep [','] (xs.map intRepr) ++ [']'] : GoStr) ≠
      str "false" := by
    intro hcon
    have := congrArg List.head? hcon
    simp only [List.head?_cons] at this
    rw [show (str "false").head? = some 'f' from rfl] at this
    simp at this
  have harr : ((str "[").isPrefixOf
      ('[' :: joinSep [','] (xs.map intRepr) ++ [']']) &&
      (str "]").isSuffixOf
      ('[' :: joinSep [','] (xs.map intRepr) ++ [']'])) = true := by
    have h1 : (str "[").isPrefixOf
        ('[' :: joinSep [','] (xs.map intRepr) ++ [']']) = true := by
      simp [str, List.isPrefixOf]
    have h2 : (str "]").isSuffixOf
        ('[' :: joinSep [','] (xs.map intRepr) ++ [']']) = true := by
      unfold List.isSuffixOf
      rw [show ('[' :: joinSep [','] (xs.map intRepr) ++ [']'] : GoStr).reverse =
        ']' :: ((joinSep [','] (xs.map intRepr)).reverse ++ ['[']) from by simp]
      simp [str, List.isPrefixOf]
    rw [h1, h2]
    rfl
  unfold parseLiteral
  rw [hq]
  simp only [Bool.false_eq_true, if_false]
  rw [if_neg ht, if_neg hf, harr]
  simp only [if_true]
  simp only [goSlice_wrap]
  rw [trimSpace_eq_self_of_all (@arrJoin_no_space xs)]
  cases xs with
  | nil => rfl
  | cons x rest =>
    rw [if_neg (@joinSep_comma_ne_nil x rest)]
    rw [show joinSep [','] ((x :: rest).map intRepr) =
      joinSep (str ",") ((x :: rest).map intRepr) from rfl]
    rw [splitGo_joinSep_comma _ (by simp)
      (by
        intro p hp
        rw [List.mem_map] at hp
        obtain ⟨y, _, rfl⟩ := hp
        exact goContains_false_of_not_mem (x := ',') (by decide)
          (fun hmem => intRepr_no_comma ',' hmem rfl))]
    rw [goIntPieces_map_intRepr hr]

/-- The serialized token of a clean string value is good. -/
theorem goodVal_str {s : GoStr} (hs : goContains s (str ", ") = false) :
    goodVal (.str s) := by
  refine ⟨?_, ?_, ?_⟩
  · show trimSpace ('"' :: s ++ ['"']) = '"' :: s ++ ['"']
    exact trimSpace_eq_self_of_ends (by decide) (by decide)
  · exact parseLiteral_quoted s
  · show goContains ('"' :: s ++ ['"']) (str ", ") = false
    have h1 : goContains ('"' :: s) (str ", ") = false := by
      simp only [goContains, Bool.or_eq_false_iff]
      refine ⟨by simp [str, List.isPrefixOf], hs⟩
    have h2 : goContains (('"' :: s) ++ ['"']) (str ", ") = false := by
      apply goContains_commaSpace_append h1 (by decide)
      right
      simp
    simpa using h2

/-- The serialized token of a boolean value is good. -/
theorem goodVal_boolean (b : Bool) : goodVal (.boolean b) := by
  cases b <;> exact ⟨by decide, by decide, by decide⟩

/-- The serialized token of an in-range integer value is good. -/
theorem goodVal_int {i : Int} (h : inI64Range i) : goodVal (.int i) := by
  refine ⟨?_, ?_, ?_⟩
  · exact trimSpace_eq_self_of_all (intRepr_no_space (i := i))
  · show parseLiteral (intRepr i) = .ok (.int i)
    apply parseLiteral_int
    rw [trimSpace_eq_self_of_all (intRepr_no_space (i := i))]
    exact goAtoi_intRepr h
  · exact goContains_false_of_not_mem (x := ' ') (by decide)
      (fun hmem => by
        have := intRepr_no_space ' ' hmem
        exact absurd this (by decide))

/-- The serialized token of an in-range integer array is good. -/
theorem goodVal_intArr {xs : List Int} (hr : ∀ x ∈ xs, inI64Range x) :
    goodVal (.intArr xs) := by
  refine ⟨?_, ?_, ?_⟩
  · exact trimSpace_eq_self_of_all (@arrTok_chars xs)
  · exact parseLiteral_serialized_intArr hr
  · exact goContains_false_of_not_mem (x := ' ') (by decide)
      (fun hmem => by
        have := @arrTok_chars xs ' ' hmem
        exact absurd this (by decide))

/-- The recorded token of a float value it itself parsed from is good. -/
theorem goodVal_float {tok : GoStr} (htr : trimSpace tok = tok)
    (hna : goAtoi tok = none) (hfl : goParseFloatOk tok = true) :
    goodVal (.float tok) := by
  refine ⟨htr, ?_, ?_⟩
  · show parseLiteral tok = .ok (.float tok)
    have := parseLiteral_float (s := tok) (by rw [htr]; exact hna)
      (by rw [htr]; exact hfl)
    rw [htr] at this
    exact this
  · exact goContains_false_of_not_mem (x := ' ') (by decide)
      (fun hmem => by
        have := floatChOk_not_space (goParseFloatOk_chars hfl ' ' hmem)
        exact absurd this (by decide))

/-- Values in the array branch are read by Atoi and hence in range. -/
theorem goIntPieces_ok_range :
    ∀ {ps : List GoStr} {xs : List Int}, goIntPieces ps = .ok xs →
      ∀ x ∈ xs, inI64Range x := by
  intro ps
  induction ps with
  | nil =>
    intro xs h x hx
    simp only [goIntPieces, Except.ok.injEq] at h
    subst h
    simp at hx
  | cons p rest ih =>
    intro xs h x hx
    simp only [goIntPieces] at h
    rcases hat : goAtoi (trimSpace p) with _ | v <;> simp only [hat] at h
    · exact absurd h (by simp)
    · rcases hrec : goIntPieces rest with e | vs <;> simp only [hrec] at h
      · exact absurd h (by simp)
      · simp only [Except.ok.injEq] at h
        subst h
        rcases List.mem_cons.mp hx with rfl | hx
        · exact goAtoi_range hat
        · exact ih hrec x hx

/-- Containment transfers down along the infix order. -/
theorem goContains_false_mono {s t sub : GoStr} (hst : s <:+: t)
    (h : goContains t sub = false) : goContains s sub = false := by
  by_contra hc
  simp only [Bool.not_eq_false] at hc
  have : goContains t sub = true :=
    goContains_infix_iff.mpr ((goContains_infix_iff.mp hc).trans hst)
  rw [this] at h
  exact absurd h (by simp)

/-- Inversion of a successful literal parse: the parsed value serializes
back to a token the parser reads identically, provided the source token
contained no argument separator. -/
theorem parseLiteral_ok_good {t : GoStr} {v : Lit}
    (ht : goContains t (str ", ") = false)
    (h : parseLiteral t = .ok v) : goodVal v := by
  by_cases hq : ((str "\"").isPrefixOf t && (str "\"").isSuffixOf t) = true
  · -- quoted-string branch
    simp only [Bool.and_eq_true] at hq
    obtain ⟨hq1, hq2⟩ := hq
    obtain ⟨r, hr⟩ := List.isPrefixOf_iff_prefix.mp hq1
    rcases hrr : r.reverse with _ | ⟨lastc, midr⟩
    · have hrnil : r = [] := by
        have hrev := congrArg List.reverse hrr
        simpa using hrev
      subst hrnil
      have ht1 : t = ['"'] := by rw [← hr]; rfl
      rw [ht1] at h
      rw [show parseLiteral ['"'] =
        .panic (str "runtime error: slice bounds out of range") from by
          decide] at h
      exact absurd h (by simp)
    · have hrform : r = midr.reverse ++ [lastc] := by
        have hrev := congrArg List.reverse hrr
        simpa using hrev
      have htform : t = '"' :: midr.reverse ++ [lastc] := by
        rw [← hr, hrform]; rfl
      have hlast : lastc = '"' := by
        obtain ⟨w, hw⟩ := List.isSuffixOf_iff_suffix.mp hq2
        have h1 : t.getLast? = some '"' := by
          rw [← hw]
          rw [show (str "\"") = ['"'] from rfl]
          exact List.getLast?_concat _
        have h2 : t.getLast? = some lastc := by
          rw [htform]
          rw [show ('"' :: midr.reverse ++ [lastc] : GoStr) =
            ('"' :: midr.reverse) ++ [lastc] from by simp]
          exact List.getLast?_concat _
        rw [h1] at h2
        exact (Option.some.inj h2).symm
      subst hlast
      rw [htform] at h ht
      rw [parseLiteral_quoted midr.reverse] at h
      have hv : v = .str midr.reverse := by
        cases h; rfl
      subst hv
      apply goodVal_str
      -- the middle is an infix of the clean source token
      exact goContains_false_mono
        (show midr.reverse <:+: '"' :: midr.reverse ++ ['"'] from
          ⟨['"'], ['"'], by simp⟩) ht
  · -- remaining branches share the reduced parser
    have hstep : parseLiteral t =
        (if t = str "true" then .ok (.boolean true)
        else if t = str "false" then .ok (.boolean false)
        else if (str "[").isPrefixOf t && (str "]").isSuffixOf t then
          match goSliceStr t 1 (t.length - 1) with
          | .ok inner =>
            let content := trimSpace inner
            if content = [] then .ok (.intArr [])
            else
              match goIntPieces (splitGo (str ",") content) with
              | .ok xs => .ok (.intArr xs)
              | .error e => .err e
          | .err m => .err m
          | .panic m => .panic m
        else
          match goAtoi (trimSpace t) with
          | some i => .ok (.int i)
          | none =>
            if goParseFloatOk (trimSpace t) then .ok (.float (trimSpace t))
            else .err (str "unsupported literal: " ++ t)) := by
      unfold parseLiteral
      rw [if_neg hq]
    rw [hstep] at h
    by_cases htr : t = str "true"
    · rw [if_pos htr] at h
      have hv : v = .boolean true := by cases h; rfl
      subst hv
      exact goodVal_boolean true
    · rw [if_neg htr] at h
      by_cases hfa : t = str "false"
      · rw [if_pos hfa] at h
        have hv : v = .boolean false := by cases h; rfl
        subst hv
        exact goodVal_boolean false
      · rw [if_neg hfa] at h
        by_cases harr : ((str "[").isPrefixOf t && (str "]").isSuffixOf t) =
            true
        · rw [if_pos harr] at h
          simp only [Bool.and_eq_true] at harr
          obtain ⟨ha1, ha2⟩ := harr
          obtain ⟨r, hr⟩ := List.isPrefixOf_iff_prefix.mp ha1
          rcases hrr : r.reverse with _ | ⟨lastc, midr⟩
          · have hrnil : r = [] := by
              have hrev := congrArg List.reverse hrr
              simpa using hrev
            subst hrnil
            have ht1 : t = ['['] := by rw [← hr]; rfl
            rw [ht1] at ha2
            exact absurd ha2 (by decide)
          · have hrform : r = midr.reverse ++ [lastc] := by
              have hrev := congrArg List.reverse hrr
              simpa using hrev
            have htform : t = '[' :: midr.reverse ++ [lastc] := by
              rw [← hr, hrform]; rfl
            have hlast : lastc = ']' := by
              obtain ⟨w, hw⟩ := List.isSuffixOf_iff_suffix.mp ha2
              have h1 : t.getLast? = some ']' := by
                rw [← hw]
                rw [show (str "]") = [']'] from rfl]
                exact List.getLast?_concat _
              have h2 : t.getLast? = some lastc := by
                rw [htform]
                rw [show ('[' :: midr.reverse ++ [lastc] : GoStr) =
                  ('[' :: midr.reverse) ++ [lastc] from by simp]
                exact List.getLast?_concat _
              rw [h1] at h2
              exact (Option.some.inj h2).symm
            subst hlast
            rw [htform] at h
            simp only [goSlice_wrap] at h
            by_cases hcon : trimSpace midr.reverse = []
            · rw [if_pos hcon] at h
              have hv : v = .intArr [] := by cases h; rfl
              subst hv
              exact goodVal_intArr (by simp)
            · rw [if_neg hcon] at h
              rcases hip : goIntPieces
                  (splitGo (str ",") (trimSpace midr.reverse)) with
                e | xs <;> simp only [hip] at h
              · exact absurd h (by simp)
              · have hv : v = .intArr xs := by cases h; rfl
                subst hv
                exact goodVal_intArr (goIntPieces_ok_range hip)
        · rw [if_neg harr] at h
          rcases hat : goAtoi (trimSpace t) with _ | i <;> simp only [hat] at h
          · by_cases hfl : goParseFloatOk (trimSpace t) = true
            · rw [if_pos hfl] at h
              have hv : v = .float (trimSpace t) := by cases h; rfl
              subst hv
              exact goodVal_float (trimSpace_idem t) hat hfl
            · rw [if_neg hfl] at h
              exact absurd h (by simp)
          · have hv : v = .int i := by cases h; rfl
            subst hv
            exact goodVal_int (goAtoi_range hat)

/-- A good Action entry: trimmed key without `=` or `", "`, good value. -/
def goodEntry (e : GoStr × Lit) : Prop :=
  trimSpace e.1 = e.1 ∧ goContains e.1 (str "=") = false ∧
    goContains e.1 (str ", ") = false ∧ goodVal e.2

/-- The trimmed string sits inside the original. -/
theorem trimSpace_infix_self (l : GoStr) : trimSpace l <:+: l := by
  have h1 : l.dropWhile goIsSpace <:+ l := List.dropWhile_suffix goIsSpace
  have h2 : trimSpace l <+: l.dropWhile goIsSpace := by
    unfold trimSpace
    have hsuf : (l.dropWhile goIsSpace).reverse.dropWhile goIsSpace <:+
        (l.dropWhile goIsSpace).reverse := List.dropWhile_suffix goIsSpace
    have hpp := List.reverse_prefix.mpr hsuf
    rwa [List.reverse_reverse] at hpp
  exact h2.isInfix.trans h1.isInfix

/-- Membership in the updated map comes from the old map or the new pair. -/
theorem upsert_mem {acc : Action} {k : GoStr} {v : Lit} {e : GoStr × Lit}
    (he : e ∈ upsert acc k v) : e ∈ acc ∨ e = (k, v) := by
  unfold upsert at he
  split at he
  · rw [List.mem_map] at he
    obtain ⟨p, hp, hpe⟩ := he
    by_cases hpk : p.1 = k
    · right; rw [if_pos hpk] at hpe; exact hpe.symm
    · left; rw [if_neg hpk] at hpe; exact hpe ▸ hp
  · rcases List.mem_append.mp he with h | h
    · left; exact h
    · right; simpa using h

/-- The key test of `upsert` is key membership. -/
theorem upsert_any_iff {acc : Action} {k : GoStr} :
    acc.any (fun p => p.1 = k) = true ↔ k ∈ acc.map Prod.fst := by
  simp only [List.any_eq_true, List.mem_map, decide_eq_true_eq]

/-- The key list after an update: unchanged on replacement, extended by the
new key on insertion. -/
theorem upsert_keys (acc : Action) (k : GoStr) (v : Lit) :
    ((upsert acc k v).map Prod.fst = acc.map Prod.fst ∧
      k ∈ acc.map Prod.fst) ∨
    ((upsert acc k v).map Prod.fst = acc.map Prod.fst ++ [k] ∧
      k ∉ acc.map Prod.fst) := by
  unfold upsert
  by_cases hmem : acc.any (fun p => p.1 = k) = true
  · left
    rw [if_pos hmem]
    refine ⟨?_, upsert_any_iff.mp hmem⟩
    rw [List.map_map]
    apply List.map_congr_left
    intro p _
    by_cases hpk : p.1 = k
    · simp [Function.comp, hpk]
    · simp [Function.comp, hpk]
  · right
    rw [if_neg hmem]
    refine ⟨by simp, ?_⟩
    intro hcon
    exact hmem (upsert_any_iff.mpr hcon)

/-- Keys stay duplicate-free across an update. -/
theorem upsert_nodup {acc : Action} {k : GoStr} {v : Lit}
    (h : (acc.map Prod.fst).Nodup) :
    ((upsert acc k v).map Prod.fst).Nodup := by
  rcases upsert_keys acc k v with ⟨heq, _⟩ | ⟨heq, hnm⟩
  · rw [heq]; exact h
  · rw [heq]
    apply List.Nodup.append h (List.nodup_singleton k)
    intro a ha hb
    simp only [List.mem_singleton] at hb
    subst hb
    exact hnm ha

/-- The old key order is a prefix of the new one. -/
theorem upsert_keys_pre (acc : Action) (k : GoStr) (v : Lit) :
    acc.map Prod.fst <+: (upsert acc k v).map Prod.fst := by
  rcases upsert_keys acc k v with ⟨heq, _⟩ | ⟨heq, _⟩
  · rw [heq]
  · rw [heq]; exact ⟨[k], rfl⟩

/-- Invariants of a successful run of the argument loop: the resulting
entries are good, the key list is duplicate-free, and the accumulator's key
order is preserved as a prefix. -/
theorem processParts_ok_entries :
    ∀ (parts : List GoStr) (acc a : Action),
      processParts parts acc = .ok a →
      (∀ part ∈ parts, goContains part (str ", ") = false) →
      (∀ e ∈ acc, goodEntry e) → (acc.map Prod.fst).Nodup →
      (∀ e ∈ a, goodEntry e) ∧ (a.map Prod.fst).Nodup ∧
        acc.map Prod.fst <+: a.map Prod.fst := by
  intro parts
  induction parts with
  | nil =>
    intro acc a h _ hacc hnd
    simp only [processParts, GoRes.ok.injEq] at h
    subst h
    exact ⟨hacc, hnd, List.prefix_refl _⟩
  | cons part rest ih =>
    intro acc a h hcl hacc hnd
    simp only [processParts] at h
    rcases hsp : splitFirst (str "=") part with _ | ⟨k0, v0⟩ <;>
      simp only [hsp] at h
    · exact absurd h (by simp)
    · rcases hlit : parseLiteral (trimSpace v0) with val | e | m <;>
        simp only [hlit] at h
      · -- the new entry is good
        have hpd := splitFirst_eq_append hsp
        have hpart := hcl part (by simp)
        have hk0 : goContains k0 (str ", ") = false := by
          apply goContains_false_mono _ hpart
          exact ⟨[], str "=" ++ v0, by simp [hpd]⟩
        have hv0 : goContains v0 (str ", ") = false := by
          apply goContains_false_mono _ hpart
          exact ⟨k0 ++ str "=", [], by simp [hpd]⟩
        have hnew : goodEntry (trimSpace k0, val) := by
          refine ⟨trimSpace_idem k0, ?_, ?_, ?_⟩
          · exact goContains_false_mono (trimSpace_infix_self k0)
              (splitFirst_not_contains (by decide) hsp)
          · exact goContains_false_mono (trimSpace_infix_self k0) hk0
          · exact parseLiteral_ok_good
              (goContains_false_mono (trimSpace_infix_self v0) hv0) hlit
        have hrec := ih (upsert acc (trimSpace k0) val) a h
          (fun q hq => hcl q (by simp [hq]))
          (fun e he => by
            rcases upsert_mem he with he | rfl
            · exact hacc e he
            · exact hnew)
          (upsert_nodup hnd)
        exact ⟨hrec.1, hrec.2.1,
          (upsert_keys_pre acc (trimSpace k0) val).trans hrec.2.2⟩
      · exact absurd h (by simp)
      · exact absurd h (by simp)

/-- Folding Go map assignment over fresh keyed entries appends them. -/
theorem foldl_upsert_append :
    ∀ (rest done : Action),
      (((done ++ rest).map Prod.fst).Nodup) →
      List.foldl (fun m e => upsert m e.1 e.2) done rest = done ++ rest := by
  intro rest
  induction rest with
  | nil => intro done _; simp
  | cons e rest' ih =>
    intro done hnd
    have hk : e.1 ∉ done.map Prod.fst := by
      intro hcon
      rw [List.map_append] at hnd
      rw [List.nodup_append] at hnd
      have := hnd.2.2 hcon
      simp at this
    have hup : upsert done e.1 e.2 = done ++ [e] := by
      unfold upsert
      rw [if_neg (by
        intro hcon
        exact hk (upsert_any_iff.mp hcon))]
    rw [List.foldl_cons, hup]
    have hnd' : (((done ++ [e]) ++ rest').map Prod.fst).Nodup := by
      simpa using hnd
    have := ih (done ++ [e]) hnd'
    simpa using this

/-- The serialized token of a good entry splits back at its `=`. -/
theorem entryToken_split {e : GoStr × Lit} (hg : goodEntry e) :
    splitFirst (str "=") (entryToken e) = some (e.1, serializeLit e.2) := by
  obtain ⟨_, hkne, _, _⟩ := hg
  have := splitFirst_eqch_append (t := e.1) (z := serializeLit e.2) hkne
  rw [show e.1 ++ str "=" ++ serializeLit e.2 = entryToken e from by
    unfold entryToken; simp [str]] at this
  exact this

/-- Parsing the serialized token list folds the entries back into the map
with Go map assignment. -/
theorem processParts_serialized :
    ∀ (entries : List (GoStr × Lit)) (acc : Action),
      (∀ e ∈ entries, goodEntry e) →
      processParts (entries.map entryToken) acc =
        .ok (List.foldl (fun m e => upsert m e.1 e.2) acc entries) := by
  intro entries
  induction entries with
  | nil => intro acc _; rfl
  | cons e rest ih =>
    intro acc hg
    have hge := hg e (by simp)
    obtain ⟨htrk, hkne, _, hgv⟩ := hge
    obtain ⟨htv, hpv, _⟩ := hgv
    simp only [List.map_cons, processParts, entryToken_split (hg e (by simp))]
    rw [htv, hpv]
    rw [htrk]
    exact ih (upsert acc e.1 e.2) (fun q hq => hg q (by simp [hq]))

/-- The serialized token of a good entry is free of the argument
separator. -/
theorem entryToken_clean {e : GoStr × Lit} (hg : goodEntry e) :
    goContains (entryToken e) (str ", ") = false := by
  obtain ⟨_, _, hkcl, hgv⟩ := hg
  obtain ⟨_, _, hscl⟩ := hgv
  have hy : goContains ('=' :: serializeLit e.2) (str ", ") = false := by
    simp only [goContains, Bool.or_eq_false_iff]
    exact ⟨by simp [str, List.isPrefixOf], hscl⟩
  have hres := goContains_commaSpace_append hkcl hy (Or.inr (by simp))
  unfold entryToken
  simpa using hres

/-- C9: round-trip idempotence.  For every expression `parseDoCall`
accepts, re-rendering the parsed Action into `key=value` tokens in original
key order (the spec-modelled serializer, the repository shipping none) and
re-parsing yields exactly the same Action.  The claim's exclusion of string
values containing `", "` is automatically satisfied: a successful parse can
never produce such a string value, so no hypothesis beyond parse success is
needed. -/
theorem parseDo_roundtrip (expr : GoStr) (a : Action)
    (h : parseDoCall expr = .ok a) :
    parseDoCall (serializeAction a) = .ok a := by
  by_cases hpre0 : ((str "do(").isPrefixOf expr && (str ")").isSuffixOf expr) =
      true
  · simp only [parseDoCall] at h
    rw [if_pos hpre0] at h
    by_cases hbody0 :
        trimSpace (trimSuf (trimPre expr (str "do(")) (str ")")) = []
    · rw [if_pos hbody0] at h
      have ha : a = [(str "_metadata", Lit.str (str "do"))] := by
        cases h; rfl
      subst ha
      decide
    · rw [if_neg hbody0] at h
      -- invariants of the successful parse
      have hparts := @splitGo_pieces_not_contain (str ", ")
        (trimSuf (trimPre expr (str "do(")) (str ")"))
        (by decide)
      have hacc0 : ∀ e ∈ ([(str "_metadata", Lit.str (str "do"))] : Action),
          goodEntry e := by
        intro e he
        simp only [List.mem_singleton] at he
        subst he
        exact ⟨by decide, by decide, by decide, by decide, by decide, by decide⟩
      obtain ⟨hPa, hndA, hpreA⟩ := processParts_ok_entries _ _ _ h hparts
        hacc0 (by decide)
      -- the first entry carries the `_metadata` key
      obtain ⟨v0, arest, hform⟩ :
          ∃ v0 arest, a = (str "_metadata", v0) :: arest := by
        obtain ⟨w, hw⟩ := hpreA
        cases ha : a with
        | nil => rw [ha] at hw; simp at hw
        | cons e arest =>
          refine ⟨e.2, arest, ?_⟩
          rw [ha] at hw
          simp only [List.map_cons, List.map_nil, List.singleton_append] at hw
          have hh := congrArg List.head? hw
          simp only [List.head?_cons] at hh
          have hk0 : e.1 = str "_metadata" := (Option.some.inj hh).symm
          exact congrArg (fun pr => pr :: arest) (Prod.ext hk0 rfl)
      -- reparse computation pieces
      have hPpre : (str "do(").isPrefixOf (serializeAction a) = true := by
        rw [List.isPrefixOf_iff_prefix]
        exact ⟨joinSep (str ", ") (a.map entryToken) ++ str ")", by
          unfold serializeAction; simp⟩
      have hPsuf : (str ")").isSuffixOf (serializeAction a) = true := by
        rw [List.isSuffixOf_iff_suffix]
        exact ⟨str "do(" ++ joinSep (str ", ") (a.map entryToken), by
          unfold serializeAction; simp⟩
      have htp : trimPre (serializeAction a) (str "do(") =
          joinSep (str ", ") (a.map entryToken) ++ str ")" := by
        unfold trimPre
        rw [if_pos hPpre]
        unfold serializeAction
        rw [List.append_assoc]
        exact List.drop_left _ _
      have hts : trimSuf (joinSep (str ", ") (a.map entryToken) ++ str ")")
          (str ")") = joinSep (str ", ") (a.map entryToken) := by
        unfold trimSuf
        rw [if_pos (List.isSuffixOf_iff_suffix.mpr ⟨_, rfl⟩)]
        rw [show (joinSep (str ", ") (a.map entryToken) ++ str ")").length -
          (str ")").length = (joinSep (str ", ") (a.map entryToken)).length
          from by simp]
        simpa using List.take_left (joinSep (str ", ") (a.map entryToken))
          (str ")")
      have hJhead : ∃ z, joinSep (str ", ") (a.map entryToken) = '_' :: z := by
        rw [hform]
        simp only [List.map_cons]
        cases arest.map entryToken with
        | nil => exact ⟨_, rfl⟩
        | cons t1 ts => exact ⟨_, rfl⟩
      obtain ⟨z, hz⟩ := hJhead
      have hJne : ¬(trimSpace (joinSep (str ", ") (a.map entryToken)) = []) := by
        rw [hz]
        obtain ⟨w, hw⟩ := trimSpace_cons_head (c := '_') (r := z) (by decide)
        rw [hw]
        simp
      have htoksne : a.map entryToken ≠ [] := by rw [hform]; simp
      have hsplit : splitGo (str ", ") (joinSep (str ", ") (a.map entryToken)) =
          a.map entryToken := by
        apply splitGo_joinSep_commaSpace _ htoksne
        intro tok htok
        rw [List.mem_map] at htok
        obtain ⟨e, he, rfl⟩ := htok
        exact entryToken_clean (hPa e he)
      have hfold : List.foldl (fun m e => upsert m e.1 e.2)
          ([(str "_metadata", Lit.str (str "do"))] : Action) a = a := by
        rw [hform]
        rw [List.foldl_cons]
        have h1 : upsert ([(str "_metadata", Lit.str (str "do"))] : Action)
            (str "_metadata") v0 = [(str "_metadata", v0)] := by
          unfold upsert
          rw [if_pos (by simp)]
          simp
        show List.foldl (fun m e => upsert m e.1 e.2)
          (upsert [(str "_metadata", Lit.str (str "do"))]
            (str "_metadata") v0) arest = (str "_metadata", v0) :: arest
        rw [h1]
        have hnd2 : ((([(str "_metadata", v0)] : Action) ++ arest).map
            Prod.fst).Nodup := by
          rw [hform] at hndA
          simpa using hndA
        have hfa := foldl_upsert_append arest [(str "_metadata", v0)] hnd2
        rw [hfa]
        simp
      -- assemble the reparse
      have hcond : ((str "do(").isPrefixOf (serializeAction a) &&
          (str ")").isSuffixOf (serializeAction a)) = true := by
        rw [hPpre, hPsuf]; rfl
      simp only [parseDoCall]
      rw [if_pos hcond]
      rw [htp, hts]
      rw [if_neg hJne]
      rw [hsplit]
      rw [processParts_serialized a _ hPa]
      rw [hfold]
  · simp only [parseDoCall] at h
    rw [if_neg hpre0] at h
    exact absurd h (by simp)

/-- C9 witness: the round-trip theorem at a do() expression exercising all
five literal kinds. -/
theorem parseDo_roundtrip_witness :
    parseDoCall (serializeAction
      [(str "_metadata", .str (str "do")), (str "action", .str (str "click")),
        (str "x", .int 1), (str "ok", .boolean true),
        (str "pts", .intArr [1, 2, 3]), (str "t", .float (str "1.5"))]) =
      .ok [(str "_metadata", .str (str "do")), (str "action", .str (str "click")),
        (str "x", .int 1), (str "ok", .boolean true),
        (str "pts", .intArr [1, 2, 3]), (str "t", .float (str "1.5"))] :=
  parseDo_roundtrip
    (str "do(action=\"click\", x=1, ok=true, pts=[1,2,3], t=1.5)")
    [(str "_metadata", .str (str "do")), (str "action", .str (str "click")),
      (str "x", .int 1), (str "ok", .boolean true),
      (str "pts", .intArr [1, 2, 3]), (str "t", .float (str "1.5"))]
    (by decide)

end AGlm


